import Mathlib

/-!
Shallow embedding of the decision engine in `src/dicewars/ai/xsklen12/ai.py`
(the `AI` class).  Python's in-place board mutation is modelled by explicit
state passing: every function that mutates the board returns the new board.
The external collaborators (`Board` bookkeeping, `possible_attacks`, and the
probability oracle from `dicewars.ai.utils`) are not part of the repository
sources; they are modelled from the specification where noted, and the
probability oracle is kept abstract as a parameter.
Python's `max` on an empty sequence raises `ValueError`; such fallible spots
are modelled with `Option`, `none` standing for the raised exception.
-/

namespace DicewarsAI

/-- A region of the board: id, owning player, dice count and adjacency.
Modelled from the spec: "Region: identity (integer id), owner (player id),
dice count, set of adjacent region ids." -/
structure Area where
  name : Nat
  owner : Nat
  dice : Nat
  adjacent : List Nat
deriving DecidableEq

/-- The board snapshot: the list of its regions (the Python `Board.areas`
mapping, in insertion order).  Modelled from the spec: the external board
exposes per-region owner, dice count and adjacency. -/
structure Board where
  areas : List Area
deriving DecidableEq

/-- First area with the given name (Python `board.get_area(name)`; area ids
are unique keys of the `areas` dict, so first match is the match).  A missing
name yields a dummy area; the AI only queries names present on the board. -/
def findAreaD : List Area → Nat → Area
  | [], _ => ⟨0, 0, 0, []⟩
  | a :: as, n => if a.name = n then a else findAreaD as n

def getAreaD (b : Board) (n : Nat) : Area := findAreaD b.areas n

/-- `area.set_dice(d)` on the area named `n` (first match, cf. `getAreaD`). -/
def setDiceL : List Area → Nat → Nat → List Area
  | [], _, _ => []
  | a :: as, n, d => if a.name = n then { a with dice := d } :: as else a :: setDiceL as n d

def setDice (b : Board) (n d : Nat) : Board := ⟨setDiceL b.areas n d⟩

/-- `area.set_owner(p)` on the area named `n` (first match). -/
def setOwnerL : List Area → Nat → Nat → List Area
  | [], _, _ => []
  | a :: as, n, p => if a.name = n then { a with owner := p } :: as else a :: setOwnerL as n p

def setOwner (b : Board) (n p : Nat) : Board := ⟨setOwnerL b.areas n p⟩

/-- Modelled from the spec: `board.get_player_areas(p)` — the player's owned
regions, in board order. -/
def getPlayerAreas (b : Board) (p : Nat) : List Area :=
  b.areas.filter (fun a => decide (a.owner = p))

/-- Modelled from the spec: `board.get_player_border(p)` — "Border regions:
directly adjacent to an enemy." -/
def getPlayerBorder (b : Board) (p : Nat) : List Area :=
  (getPlayerAreas b p).filter (fun a => decide (∃ n ∈ a.adjacent, (getAreaD b n).owner ≠ p))

/-- Modelled from the spec: `board.nb_players_alive()` — how many players own
at least one region. -/
def nbPlayersAlive (b : Board) : Nat := ((b.areas.map Area.owner).dedup).length

/-- Modelled from the spec: `board.get_player_dice(p)` — total dice owned. -/
def getPlayerDice (b : Board) (p : Nat) : Nat :=
  (getPlayerAreas b p).foldl (fun s a => s + a.dice) 0

/-- The players present on the snapshot: Python
`set(area.get_owner_name() for area in board.areas.values())` (ai.py line 282),
as a duplicate-free list. -/
def livingPlayers (b : Board) : List Nat := (b.areas.map Area.owner).dedup

/-- Flood fill over same-owner adjacency, fuel-bounded.  `allowed` is the set
of the player's area names; the frontier starts at the seed.  The fuel passed
by `component` exceeds the total number of frontier insertions, so the
recursion never runs dry on its actual inputs. -/
def reachAux (b : Board) (allowed : List Nat) : Nat → List Nat → List Nat → List Nat
  | 0, _, visited => visited
  | _ + 1, [], visited => visited
  | fuel + 1, n :: frontier, visited =>
    if n ∈ visited then reachAux b allowed fuel frontier visited
    else reachAux b allowed fuel
      (frontier ++ (getAreaD b n).adjacent.filter (fun m => decide (m ∈ allowed)))
      (visited ++ [n])

/-- Fuel bound for `reachAux`: one unit per area plus one per adjacency entry. -/
def totalAdj (b : Board) : Nat :=
  b.areas.foldl (fun s a => s + a.adjacent.length + 1) 1

/-- The connected same-owner component containing `seed`. -/
def component (b : Board) (allowed : List Nat) (seed : Nat) : List Nat :=
  reachAux b allowed (totalAdj b + 1) [seed] []

/-- Modelled from the spec: `board.get_players_regions(p)` — "maximal set of
same-owner regions connected through same-owner adjacency", one entry per
connected component of the player's areas, in board order. -/
def getPlayersRegions (b : Board) (p : Nat) : List (List Nat) :=
  (((getPlayerAreas b p).map Area.name).foldl
    (fun (st : List (List Nat) × List Nat) n =>
      if n ∈ st.2 then st
      else (st.1 ++ [component b ((getPlayerAreas b p).map Area.name) n],
            st.2 ++ component b ((getPlayerAreas b p).map Area.name) n))
    ([], [])).1

/-- Python `max` over a list of naturals: `ValueError` (modelled `none`) on an
empty list. -/
def pyMaxNat : List Nat → Option Nat
  | [] => none
  | x :: xs => some (xs.foldl max x)

/-- Python `max` over a list of rationals: `ValueError` (modelled `none`) on an
empty list. -/
def pyMaxQ : List ℚ → Option ℚ
  | [] => none
  | x :: xs => some (xs.foldl max x)

/-- Python `max` of a nonempty literal list `[x] + xs`. -/
def listMaxQ (x : ℚ) (xs : List ℚ) : ℚ := xs.foldl max x

/-- `AI.__get_largest_region_for_player` (ai.py lines 241-245): the first
region of maximal size.  `none` models the `ValueError` of `max` over an empty
generator when the player has no region. -/
def getLargestRegionForPlayer (p : Nat) (b : Board) : Option (List Nat) := do
  let rs := getPlayersRegions b p
  let mx ← pyMaxNat (rs.map List.length)
  rs.find? (fun r => decide (r.length = mx))

/-- The probability model of `dicewars.ai.utils`, an external collaborator
("Probability Oracle" in the spec); kept abstract.  `pSA b s t` is
`probability_of_successful_attack(board, s, t)` and `pHold b n d p` is
`probability_of_holding_area(board, n, d, p)`. -/
structure Oracle where
  pSA : Board → Nat → Nat → ℚ
  pHold : Board → Nat → Nat → Nat → ℚ

/-- The AI's construction-time configuration together with the per-turn
transfer counter fed into `__get_possible_turns` (`self.player_name`,
`self.max_transfers`, `self.transfer_count_this_turn`). -/
structure Cfg where
  playerName : Nat
  maxTransfers : Nat
  transferCountThisTurn : Nat

def MAX_DICE : Nat := 8
def MAX_N_DEPTH : Nat := 5
def LARGEST_REGION_HEURISTIC_WEIGHT : ℚ := 50
def REGION_HEURISTIC_WEIGHT : ℚ := 5
def ATTACK_PROBABILITY_THRESHOLD : ℚ := 0.2
def ATTACK_FROM_LARGEST_REGION_WEIGHT : ℚ := 3
def ATTACK_PLAYERS_LIMIT_2 : Nat := 2
def ATTACK_PROBABILITY_THRESHOLD_2 : ℚ := 0.4
def ATTACK_FROM_LARGEST_REGION_WEIGHT_2 : ℚ := 2
def TRANSFER_PROBABILITY_THRESHOLD : ℚ := 0.3
def BATTLE_COMMAND : Nat := 1
def TRANSFER_COMMAND : Nat := 2

/-- A scored candidate `(source, target, command_type, probability)`. -/
abbrev Turn4 := Nat × Nat × Nat × ℚ

/-- A bare candidate `(source, target, command_type)`. -/
abbrev Turn3 := Nat × Nat × Nat

def proj3 (t : Turn4) : Turn3 := (t.1, t.2.1, t.2.2.1)

/-- Modelled from the spec: `possible_attacks(board, p)` of `dicewars.ai.utils`
— "every pair (source, target) where source is owned by the player and target
is an adjacent enemy-owned region", in board order. -/
def possibleAttacks (b : Board) (p : Nat) : List (Area × Area) :=
  (getPlayerAreas b p).foldl (fun acc a =>
    acc ++ a.adjacent.filterMap (fun n =>
      match b.areas.find? (fun t => decide (t.name = n)) with
      | some t => if t.owner ≠ p then some (a, t) else none
      | none => none)) []

/-- `AI.__get_transfer_probability` (ai.py lines 221-237).  The Python code
mutates the target's dice to the merged amount, reads the attack
probabilities, restores the dice, and returns the holding probability times
the best follow-up attack probability; the board is threaded explicitly and
returned. -/
def getTransferProbability (o : Oracle) (b : Board) (source target player : Nat) :
    ℚ × Board :=
  let sourceArea := getAreaD b source
  let targetArea := getAreaD b target
  let finalDice := min (targetArea.dice + sourceArea.dice) MAX_DICE
  let originalDice := targetArea.dice
  let enemyAreaNames := targetArea.adjacent.filter (fun n => decide ((getAreaD b n).owner ≠ player))
  let b1 := setDice b target finalDice
  let attackProbabilities := enemyAreaNames.map (fun e => o.pSA b1 target e)
  let b2 := setDice b1 target originalDice
  (o.pHold b2 targetArea.name finalDice player * listMaxQ 1 attackProbabilities, b2)

/-- The attack-probability threshold active for the board (ai.py lines
117-122). -/
def attackThreshold (b : Board) : ℚ :=
  if nbPlayersAlive b > ATTACK_PLAYERS_LIMIT_2 then ATTACK_PROBABILITY_THRESHOLD_2
  else ATTACK_PROBABILITY_THRESHOLD

/-- The largest-region preference weight active for the board (ai.py lines
117-122). -/
def attackWeight (b : Board) : ℚ :=
  if nbPlayersAlive b > ATTACK_PLAYERS_LIMIT_2 then ATTACK_FROM_LARGEST_REGION_WEIGHT_2
  else ATTACK_FROM_LARGEST_REGION_WEIGHT

/-- The `turn_probability` of an enumerated attack pair (ai.py lines
130-133): success probability times the probability of holding the target at
`attack_power = target.get_dice()` dice. -/
def attackProb (o : Oracle) (b : Board) (player : Nat) (st : Area × Area) : ℚ :=
  o.pSA b st.1.name st.2.name * o.pHold b st.2.name st.2.dice player

/-- The attack-enumeration loop of `__get_possible_turns` (ai.py lines
127-137): keep a candidate when its combined probability reaches the threshold
or the target (`attack_power = target.get_dice()`) is at the dice cap, boosting
the score of attacks out of the largest region. -/
def attackTurnsFor (o : Oracle) (b : Board) (player : Nat) (largest : List Nat) : List Turn4 :=
  (possibleAttacks b player).foldl (fun acc st =>
    if attackProb o b player st ≥ attackThreshold b ∨ st.2.dice = MAX_DICE then
      acc ++ [(st.1.name, st.2.name, BATTLE_COMMAND,
               if st.1.name ∈ largest then attackProb o b player st * attackWeight b
               else attackProb o b player st)]
    else acc) []

/-- Stable descending insertion by score: the new element goes after every
element of at least its score, matching Python's stable
`sorted(..., reverse=True)`. -/
def insertTurnDesc (x : Turn4) : List Turn4 → List Turn4
  | [] => [x]
  | y :: ys => if x.2.2.2 ≤ y.2.2.2 then y :: insertTurnDesc x ys else x :: y :: ys

/-- `sorted(turns, key = lambda turn: turn[3], reverse = True)` (ai.py line
179), as a stable insertion sort. -/
def sortTurnsDesc (l : List Turn4) : List Turn4 :=
  l.foldl (fun acc x => insertTurnDesc x acc) []

/-- The probability-collection loop of `__request_transfer_from_area` (ai.py
lines 206-209), restricted to the border-adjacent neighbours of the original
target; the board is threaded through the probes. -/
def transferProbFold (o : Oracle) (player source : Nat) :
    List Nat → Board → List ℚ → (List ℚ × Board)
  | [], b, acc => (acc, b)
  | n :: ns, b, acc =>
    let pr := getTransferProbability o b source n player
    transferProbFold o player source ns pr.2 (acc ++ [pr.1])

mutual

/-- The neighbour loop of `__request_transfer_from_area` (ai.py lines
202-204): recurse into each adjacent inner area not yet visited in this chain.
The visited list, candidate list, transfer counter and board are threaded, as
the Python code mutates them in place. -/
def chainChildren (o : Oracle) (cfg : Cfg) (player : Nat) (inner border : List Nat)
    (originalTarget parent : Nat) :
    Nat → List Nat → Board → List Nat → List Turn4 → Nat →
    Option (List Nat × List Turn4 × Nat × Board)
  | _, [], b, ignored, turns, count => some (ignored, turns, count, b)
  | fuel, nbr :: rest, b, ignored, turns, count =>
    if nbr ∉ ignored ∧ nbr ∈ inner then
      match requestTransferFromArea o cfg player inner border fuel b nbr parent
          originalTarget ignored turns count with
      | none => none
      | some (ignored2, turns2, count2, b2) =>
        chainChildren o cfg player inner border originalTarget parent fuel rest b2
          ignored2 turns2 count2
    else chainChildren o cfg player inner border originalTarget parent fuel rest b
          ignored turns count

/-- `AI.__request_transfer_from_area` (ai.py lines 185-217).  Fuel decreases
on each nested chain call; since every call appends its unvisited source to
the shared visited list, the Python recursion nests at most once per area, so
the fuel passed by `getPossibleTurns` (number of areas plus one) never runs
out; `none` covers both exhausted fuel and the `ValueError` of `max` over an
empty probability list. -/
def requestTransferFromArea (o : Oracle) (cfg : Cfg) (player : Nat) (inner border : List Nat) :
    Nat → Board → Nat → Nat → Nat → List Nat → List Turn4 → Nat →
    Option (List Nat × List Turn4 × Nat × Board)
  | 0, _, _, _, _, _, _, _ => none
  | fuel + 1, b, source, target, originalTarget, ignored, turns, count =>
    let sourceArea := getAreaD b source
    let originalTargetArea := getAreaD b originalTarget
    match chainChildren o cfg player inner border originalTarget source fuel
        sourceArea.adjacent b (ignored ++ [source]) turns count with
    | none => none
    | some (ignored2, turns2, count2, b2) =>
      let pr := transferProbFold o player source
        (originalTargetArea.adjacent.filter (fun n => decide (n ∈ border))) b2 []
      match pyMaxQ pr.1 with
      | none => none
      | some turnProbability =>
        if count2 < cfg.maxTransfers ∧ turnProbability > TRANSFER_PROBABILITY_THRESHOLD ∧
            (getAreaD pr.2 target).dice < MAX_DICE ∧ (getAreaD pr.2 source).dice > 1 then
          some (ignored2, turns2 ++ [(source, target, TRANSFER_COMMAND, turnProbability)],
                count2 + 1, pr.2)
        else some (ignored2, turns2, count2, pr.2)

end

/-- The border-neighbour branch of the main transfer loop (ai.py lines
154-167): start a fresh chain (empty visited list) from each adjacent inner
area. -/
def bnFold (o : Oracle) (cfg : Cfg) (player : Nat) (inner border : List Nat)
    (areaName : Nat) (fuel : Nat) :
    List Nat → Board → List Turn4 → Nat → Option (List Turn4 × Nat × Board)
  | [], b, turns, count => some (turns, count, b)
  | nbr :: rest, b, turns, count =>
    if nbr ∈ inner then
      match requestTransferFromArea o cfg player inner border fuel b nbr areaName
          areaName [] turns count with
      | none => none
      | some (_, turns2, count2, b2) =>
        bnFold o cfg player inner border areaName fuel rest b2 turns2 count2
    else bnFold o cfg player inner border areaName fuel rest b turns count

/-- The border-receive branch of the main transfer loop (ai.py lines
168-177): a border area with fewer than 8 dice considers each owned,
non-border adjacent source with more than one die. -/
def borderReceiveFold (o : Oracle) (player areaName : Nat)
    (playerNames border : List Nat) :
    List Nat → Board → List Turn4 → Nat → (List Turn4 × Nat × Board)
  | [], b, turns, count => (turns, count, b)
  | nbr :: rest, b, turns, count =>
    if nbr ∈ playerNames then
      let pr := getTransferProbability o b nbr areaName player
      if (getAreaD pr.2 nbr).dice > 1 ∧ pr.1 > TRANSFER_PROBABILITY_THRESHOLD ∧
          nbr ∉ border then
        borderReceiveFold o player areaName playerNames border rest pr.2
          (turns ++ [(nbr, areaName, TRANSFER_COMMAND, pr.1)]) (count + 1)
      else borderReceiveFold o player areaName playerNames border rest pr.2 turns count
    else borderReceiveFold o player areaName playerNames border rest b turns count

/-- The main transfer loop of `__get_possible_turns` (ai.py lines 150-177).
The `break` at the loop head fires only when the counter equals the cap
exactly, as in the Python code. -/
def mainAreasLoop (o : Oracle) (cfg : Cfg) (player : Nat)
    (playerNames border bn inner : List Nat) (fuel : Nat) :
    List Area → Board → List Turn4 → Nat → Option (List Turn4 × Nat × Board)
  | [], b, turns, count => some (turns, count, b)
  | a :: rest, b, turns, count =>
    if count = cfg.maxTransfers then some (turns, count, b)
    else if a.name ∈ bn then
      match bnFold o cfg player inner border a.name fuel a.adjacent b turns count with
      | none => none
      | some (turns2, count2, b2) =>
        mainAreasLoop o cfg player playerNames border bn inner fuel rest b2 turns2 count2
    else if a.name ∈ border ∧ (getAreaD b a.name).dice < MAX_DICE then
      match borderReceiveFold o player a.name playerNames border a.adjacent b turns count with
      | (turns2, count2, b2) =>
        mainAreasLoop o cfg player playerNames border bn inner fuel rest b2 turns2 count2
    else mainAreasLoop o cfg player playerNames border bn inner fuel rest b turns count

/-- `border_area_names` (ai.py line 140). -/
def borderNamesOf (b : Board) (player : Nat) : List Nat :=
  (getPlayerBorder b player).map Area.name

/-- `player_area_names` (ai.py line 141). -/
def playerNamesOf (b : Board) (player : Nat) : List Nat :=
  (getPlayerAreas b player).map Area.name

/-- `border_neighbor_area_names` (ai.py lines 142-145): owned areas that are
not border areas but have a border neighbour. -/
def bnNamesOf (b : Board) (player : Nat) : List Nat :=
  ((getPlayerAreas b player).filter (fun a =>
    decide (a.name ∉ borderNamesOf b player ∧
      (a.adjacent.filter (fun n => decide (n ∈ borderNamesOf b player))) ≠ []))).map Area.name

/-- `inner_area_names` (ai.py lines 146-148): owned areas that are neither
border areas nor border neighbours. -/
def innerNamesOf (b : Board) (player : Nat) : List Nat :=
  ((getPlayerAreas b player).filter (fun a =>
    decide (a.name ∉ borderNamesOf b player ∧ a.name ∉ bnNamesOf b player))).map Area.name

/-- `AI.__get_possible_turns` (ai.py lines 116-181): the scored attack and
transfer candidates, sorted by score descending and truncated to
`(source, target, kind)` triples; the threaded board is returned alongside.
`none` models a raised `ValueError`. -/
def getPossibleTurns (o : Oracle) (cfg : Cfg) (player : Nat) (b : Board) :
    Option (List Turn3 × Board) :=
  match getLargestRegionForPlayer player b with
  | none => none
  | some largestRegion =>
    match mainAreasLoop o cfg player (playerNamesOf b player) (borderNamesOf b player)
        (bnNamesOf b player) (innerNamesOf b player) (b.areas.length + 1)
        (getPlayerAreas b player) b (attackTurnsFor o b player largestRegion)
        (if player = cfg.playerName then cfg.transferCountThisTurn else 0) with
    | none => none
    | some (turns, _, b2) => some ((sortTurnsDesc turns).map proj3, b2)

/-- The per-player heuristic map (Python dict from player id to score). -/
abbrev HeurMap := List (Nat × ℚ)

/-- Dict lookup. -/
def lookupQ (k : Nat) : HeurMap → Option ℚ
  | [] => none
  | kv :: rest => if kv.1 = k then some kv.2 else lookupQ k rest

/-- Dict assignment `m[k] = v`: replace an existing binding, else append. -/
def insertHM (m : HeurMap) (k : Nat) (v : ℚ) : HeurMap :=
  if (lookupQ k m).isSome then
    m.map (fun kv => if kv.1 = k then (k, v) else kv)
  else m ++ [(k, v)]

/-- The heuristic value `__get_players_heuristics` computes for one player
(ai.py lines 306-315): the incremental region loop (base = total dice, plus
the region weight times each region's size) followed by the largest-region
bonus; `none` models the `ValueError` of `max` over an empty size list. -/
def playerHeurValue (b : Board) (p : Nat) : Option ℚ :=
  Option.map
    (fun mx : Nat =>
      (((getPlayersRegions b p).map List.length).foldl
        (fun (s : ℚ) (z : Nat) => s + REGION_HEURISTIC_WEIGHT * (z : ℚ))
        ((getPlayerDice b p : ℚ))) +
      LARGEST_REGION_HEURISTIC_WEIGHT * (mx : ℚ))
    (pyMaxNat ((getPlayersRegions b p).map List.length))

/-- `AI.__get_players_heuristics` (ai.py lines 303-316): per player, total
dice plus the region weight times each region's size (the incremental loop of
lines 310-313 is the fold in `playerHeurValue`) plus the largest-region
weight times the maximal size; the resulting dict assigns each player its
value.  `none` models the `ValueError` of `max(player_regions_sizes)` for a
player with no region, which aborts the whole call. -/
def getPlayersHeuristics (players : List Nat) (b : Board) : Option HeurMap :=
  players.foldlM (fun m p => (playerHeurValue b p).map (fun v => insertHM m p v)) []

/-- `AI.__simulate_command` (ai.py lines 288-299) on a board value.  An attack
first writes the target's dice from the source's pre-state dice, then resets
the source and finally sets the target's owner to `source_name` (the area id,
exactly as the Python code does).  A transfer merges dice up to the cap and
clamps the source to at least one die; reads follow the Python read order on
the threaded board. -/
def simulateCommand (b : Board) (sourceName targetName commandType : Nat) : Board :=
  if commandType = BATTLE_COMMAND then
    let b1 := setDice b targetName ((getAreaD b sourceName).dice - 1)
    let b2 := setDice b1 sourceName 1
    setOwner b2 targetName sourceName
  else if commandType = TRANSFER_COMMAND then
    let formerTargetDice := (getAreaD b targetName).dice
    let b1 := setDice b targetName
      (min ((getAreaD b targetName).dice + (getAreaD b sourceName).dice) MAX_DICE)
    setDice b1 sourceName
      (max ((getAreaD b1 sourceName).dice - ((getAreaD b1 targetName).dice - formerTargetDice)) 1)
  else b

/-- One Max^n outcome: the chosen turn (if any), the heuristic map and the
rotation as left by the call (the Python deque is mutated in place, so it is
threaded). -/
abbrev MaxNOut := Option Turn3 × HeurMap × List Nat

mutual

/-- `AI.__max_n` (ai.py lines 249-284).  The rotation list is the deque read
right to left: its head is `players_names[-1]`, and `pop()` is `tail`.  Board
copies are values, so `deepcopy` is the identity here.  The outer `Option` is
fuel (the Python recursion terminates because every nested call shortens the
rotation or the depth); `Except.error ()` models a raised `ValueError`. -/
def maxNF (o : Oracle) (cfg : Cfg) :
    Nat → Board → List Nat → Nat → Option (Except Unit MaxNOut)
  | 0, _, _, _ => none
  | fuel + 1, b, rot, depth =>
    match rot with
    | [] =>
      match getPlayersHeuristics [cfg.playerName] b with
      | none => some (Except.error ())
      | some h => some (Except.ok (none, h, []))
    | p :: rest =>
      if getPlayerAreas b p = [] then
        maxNF o cfg fuel b rest depth
      else if depth ≠ 0 then
        match getPossibleTurns o cfg p b with
        | none => some (Except.error ())
        | some (allTurns, b1) =>
          match allTurns.take depth with
          | [] =>
            match maxNF o cfg fuel b1 (p :: rest) 0 with
            | none => none
            | some (Except.error e) => some (Except.error e)
            | some (Except.ok (_, h, rot2)) => some (Except.ok (none, h, rot2))
          | c :: cs =>
            maxNLoop o cfg p b1 depth fuel (c :: cs) (p :: rest) (0, 0, BATTLE_COMMAND) []
      else
        if rest ≠ [] then maxNF o cfg fuel b rest MAX_N_DEPTH
        else
          match getPlayersHeuristics (livingPlayers b) b with
          | none => some (Except.error ())
          | some h => some (Except.ok (none, h, []))
termination_by fuel _ _ _ => (fuel, 0)

/-- The candidate loop of `__max_n` (ai.py lines 264-276): simulate each
candidate on a copy, recurse at `depth - 1`, and keep the candidate whose
heuristic for the current player strictly improves on the best so far; the
final `turn if players_heuristics else None` is the base case. -/
def maxNLoop (o : Oracle) (cfg : Cfg) (p : Nat) (b : Board) (depth : Nat) :
    Nat → List Turn3 → List Nat → Turn3 → HeurMap → Option (Except Unit MaxNOut)
  | _, [], rot, turnVar, heurVar =>
    some (Except.ok (if heurVar = [] then none else some turnVar, heurVar, rot))
  | fuel, c :: cs, rot, turnVar, heurVar =>
    let bCopy := simulateCommand b c.1 c.2.1 c.2.2
    match maxNF o cfg fuel bCopy rot (depth - 1) with
    | none => none
    | some (Except.error e) => some (Except.error e)
    | some (Except.ok (_, newHeur, rot2)) =>
      match lookupQ p newHeur with
      | none => maxNLoop o cfg p b depth fuel cs rot2 turnVar heurVar
      | some v =>
        match lookupQ p heurVar with
        | none => maxNLoop o cfg p b depth fuel cs rot2 c newHeur
        | some cur =>
          if v > cur then maxNLoop o cfg p b depth fuel cs rot2 c newHeur
          else maxNLoop o cfg p b depth fuel cs rot2 turnVar heurVar
termination_by fuel cs _ _ _ => (fuel, cs.length + 1)

end

/-- `AI.__perform_command` (ai.py lines 106-112), the translated command. -/
inductive Command where
  | battle : Nat → Nat → Command
  | transferCmd : Nat → Nat → Command
  | endTurn : Command
deriving DecidableEq

/-- `AI.__perform_command` (ai.py lines 106-112). -/
def performCommand (cfg : Cfg) (source target commandType nbTransfersThisTurn : Nat) :
    Command :=
  if commandType = BATTLE_COMMAND then Command.battle source target
  else if commandType = TRANSFER_COMMAND ∧ nbTransfersThisTurn < cfg.maxTransfers then
    Command.transferCmd source target
  else Command.endTurn

/-- The per-candidate recursion results of the `__max_n` candidate loop, in
loop order: each candidate is simulated on a copy and the recursive heuristic
map recorded, with the rotation threaded exactly as in `maxNLoop`. -/
def loopTrace (o : Oracle) (cfg : Cfg) (b : Board) (depth fuel : Nat) :
    List Turn3 → List Nat → Option (Except Unit (List (Turn3 × HeurMap) × List Nat))
  | [], rot => some (Except.ok ([], rot))
  | c :: cs, rot =>
    let bCopy := simulateCommand b c.1 c.2.1 c.2.2
    match maxNF o cfg fuel bCopy rot (depth - 1) with
    | none => none
    | some (Except.error e) => some (Except.error e)
    | some (Except.ok (_, newHeur, rot2)) =>
      match loopTrace o cfg b depth fuel cs rot2 with
      | none => none
      | some (Except.error e) => some (Except.error e)
      | some (Except.ok (res, rotF)) => some (Except.ok ((c, newHeur) :: res, rotF))

/-- Reference selection: the first candidate attaining the strictly greatest
heuristic for `p` among candidates whose result defines one (`none` when no
candidate does).  Later candidates replace the current best only on a strict
improvement, mirroring the `>` comparison of ai.py line 272. -/
def specSelect (p : Nat) : List (Turn3 × HeurMap) → Option (Turn3 × ℚ)
  | [] => none
  | ch :: rest =>
    match lookupQ p ch.2, specSelect p rest with
    | none, r => r
    | some v, none => some (ch.1, v)
    | some v, some cv2 => if cv2.2 > v then some cv2 else some (ch.1, v)

/-- Constant-certainty oracle used for concrete evaluations. -/
def oracleOne : Oracle := ⟨fun _ _ _ => 1, fun _ _ _ _ => 1⟩

/-- Constant-zero oracle used for concrete evaluations. -/
def oracleZero : Oracle := ⟨fun _ _ _ => 0, fun _ _ _ _ => 0⟩

/-- Oracle that rates attacks out of area 10 impossible and everything else
certain. -/
def oracleTen : Oracle := ⟨fun _ s _ => if s = 10 then 0 else 1, fun _ _ _ _ => 1⟩

/-- AI configuration used for concrete evaluations: acting player 1, up to 10
transfers per turn, none made yet. -/
def cfgA : Cfg := ⟨1, 10, 0⟩

/-- Two adjacent areas: area 10 owned by player 2, area 20 by player 3. -/
def boardOwn : Board := ⟨[⟨10, 2, 3, [20]⟩, ⟨20, 3, 2, [10]⟩]⟩

/-- The spec's scenario board: A = area 10 (owner 1, 8 dice), B = area 20
(owner 2, 2 dice), mutually adjacent. -/
def boardAB : Board := ⟨[⟨10, 1, 8, [20]⟩, ⟨20, 2, 2, [10]⟩]⟩

/-- Two adjacent areas of player 1 with 2 dice each. -/
def boardTT : Board := ⟨[⟨10, 1, 2, [20]⟩, ⟨20, 1, 2, [10]⟩]⟩

/-- Player 1 owns a border area 5 (enemy 99 beyond), two border-neighbour
areas 6 and 7, and two inner areas 8 and 9, with 8 adjacent to both 6 and 7. -/
def boardChain : Board :=
  ⟨[⟨5, 1, 2, [99, 6, 7]⟩, ⟨99, 2, 2, [5]⟩, ⟨6, 1, 2, [5, 8]⟩,
    ⟨7, 1, 2, [5, 8]⟩, ⟨8, 1, 2, [6, 7, 9]⟩, ⟨9, 1, 2, [8]⟩]⟩

/-- Player 1 owns only area 10, threatened by player 2's area 21; player 2
also owns area 20 facing player 3's area 30. -/
def boardLastStand : Board :=
  ⟨[⟨10, 1, 2, [21]⟩, ⟨20, 2, 2, [30]⟩, ⟨21, 2, 2, [10]⟩, ⟨30, 3, 2, [20]⟩]⟩

/-- Player 1's area 10 (3 dice) faces player 2's area 30 (2 dice). -/
def boardDuo : Board := ⟨[⟨10, 1, 3, [30]⟩, ⟨30, 2, 2, [10]⟩]⟩

/-- One update of the `__max_n` candidate loop state (ai.py lines 271-274):
replace the best candidate and heuristic map exactly when the new result
defines a value for `p` that strictly improves on the current one (or none is
held yet). -/
def selectStep (p : Nat) (st ch : Turn3 × HeurMap) : Turn3 × HeurMap :=
  match lookupQ p ch.2 with
  | none => st
  | some v =>
    match lookupQ p st.2 with
    | none => ch
    | some cur => if v > cur then ch else st

/-! ### Lemmas about the board accessors -/

theorem setDiceL_map_name (l : List Area) (n d : Nat) :
    (setDiceL l n d).map Area.name = l.map Area.name := by
  induction l with
  | nil => rfl
  | cons a as ih =>
    by_cases h : a.name = n <;> simp [setDiceL, h, ih]

theorem findAreaD_name_of_mem (l : List Area) (n : Nat) (h : n ∈ l.map Area.name) :
    (findAreaD l n).name = n := by
  induction l with
  | nil => simp at h
  | cons a as ih =>
    by_cases ha : a.name = n
    · simp [findAreaD, ha]
    · simp only [List.map_cons, List.mem_cons] at h
      rcases h with h | h
      · exact absurd h (fun hh => ha hh.symm)
      · simp [findAreaD, ha, ih h]

theorem findAreaD_setDiceL_self (l : List Area) (n d : Nat) (h : n ∈ l.map Area.name) :
    findAreaD (setDiceL l n d) n = { findAreaD l n with dice := d } := by
  induction l with
  | nil => simp at h
  | cons a as ih =>
    by_cases ha : a.name = n
    · subst ha
      simp [setDiceL, findAreaD]
    · simp only [List.map_cons, List.mem_cons] at h
      rcases h with h | h
      · exact absurd h (fun hh => ha hh.symm)
      · simp [setDiceL, findAreaD, ha, ih h]

theorem findAreaD_setDiceL_other (l : List Area) (n d m : Nat) (h : m ≠ n) :
    findAreaD (setDiceL l n d) m = findAreaD l m := by
  induction l with
  | nil => rfl
  | cons a as ih =>
    by_cases ha : a.name = n
    · subst ha
      have hnm : ¬ a.name = m := fun hc => h hc.symm
      simp [setDiceL, findAreaD, hnm]
    · by_cases hm : a.name = m
      · subst hm
        simp [setDiceL, findAreaD, ha, h]
      · simp [setDiceL, findAreaD, ha, hm, ih]

theorem setDiceL_restore (l : List Area) (n d : Nat) :
    setDiceL (setDiceL l n d) n (findAreaD l n).dice = l := by
  induction l with
  | nil => rfl
  | cons a as ih =>
    by_cases ha : a.name = n
    · subst ha
      simp [setDiceL, findAreaD]
    · simp [setDiceL, findAreaD, ha, ih]

theorem getAreaD_setDice_self (b : Board) (n d : Nat) (h : n ∈ b.areas.map Area.name) :
    getAreaD (setDice b n d) n = { getAreaD b n with dice := d } :=
  findAreaD_setDiceL_self b.areas n d h

theorem getAreaD_setDice_other (b : Board) (n d m : Nat) (h : m ≠ n) :
    getAreaD (setDice b n d) m = getAreaD b m :=
  findAreaD_setDiceL_other b.areas n d m h

theorem setDice_restore (b : Board) (n d : Nat) :
    setDice (setDice b n d) n (getAreaD b n).dice = b :=
  congrArg Board.mk (setDiceL_restore b.areas n d)

theorem setDice_map_name (b : Board) (n d : Nat) :
    (setDice b n d).areas.map Area.name = b.areas.map Area.name :=
  setDiceL_map_name b.areas n d

/-! ### Claim C6 -/

/-- Claim C6: command translation by `__perform_command` returns a
`BattleCommand` for an Attack; it returns a `TransferCommand` for a Transfer
exactly when the transfers already made this turn are strictly below the cap,
and otherwise `EndTurnCommand`. -/
theorem c6_perform_command (cfg : Cfg) (s t n : Nat) :
    performCommand cfg s t BATTLE_COMMAND n = Command.battle s t ∧
    (performCommand cfg s t TRANSFER_COMMAND n = Command.transferCmd s t ↔
      n < cfg.maxTransfers) ∧
    (¬ n < cfg.maxTransfers →
      performCommand cfg s t TRANSFER_COMMAND n = Command.endTurn) := by
  refine ⟨by simp [performCommand, BATTLE_COMMAND], ?_, ?_⟩
  · by_cases h : n < cfg.maxTransfers <;>
      simp [performCommand, BATTLE_COMMAND, TRANSFER_COMMAND, h]
  · intro h
    simp [performCommand, BATTLE_COMMAND, TRANSFER_COMMAND, h]

/-- Witness for C6: with a cap of 10, a Transfer requested at transfer count
10 yields `EndTurn`, and at transfer count 3 a transfer command. -/
theorem c6_witness :
    (¬ 10 < cfgA.maxTransfers →
      performCommand cfgA 3 4 TRANSFER_COMMAND 10 = Command.endTurn) ∧
    (performCommand cfgA 3 4 TRANSFER_COMMAND 3 = Command.transferCmd 3 4 ↔
      3 < cfgA.maxTransfers) :=
  ⟨(c6_perform_command cfgA 3 4 10).2.2, (c6_perform_command cfgA 3 4 3).2.1⟩

/-! ### Claim C1 -/

/-- Claim C1 (failing input): on `boardOwn`, simulating
`Attack(source = area 10 owned by player 2, target = area 20 owned by player
3)` sets the target's owner to `10` — the source's *area id* (the Python code
executes `target.set_owner(source_name)`) — while the source's owner is `2`,
so the target's owner does not equal the source's owner. -/
theorem c1_attack_owner_divergence :
    (getAreaD (simulateCommand boardOwn 10 20 BATTLE_COMMAND) 20).owner = 10 ∧
    (getAreaD boardOwn 10).owner = 2 ∧
    (getAreaD (simulateCommand boardOwn 10 20 BATTLE_COMMAND) 10).owner = 2 ∧
    (getAreaD (simulateCommand boardOwn 10 20 BATTLE_COMMAND) 20).owner ≠
      (getAreaD (simulateCommand boardOwn 10 20 BATTLE_COMMAND) 10).owner := by
  decide

/-! ### Claim C8 -/

/-- Claim C8: `__get_transfer_probability` returns the probability of holding
the target at the merged dice count `min(target.dice + source.dice, 8)` times
the maximum of 1 and the successful-attack probabilities from the target over
the target's enemy neighbours (evaluated at the merged dice count), and it
leaves the board unchanged: the threaded board it returns is the input board,
every area's dice and owner restored. -/
theorem c8_transfer_probability_frame (o : Oracle) (b : Board) (s t p : Nat) :
    getTransferProbability o b s t p =
      (o.pHold b (getAreaD b t).name
         (min ((getAreaD b t).dice + (getAreaD b s).dice) MAX_DICE) p *
       listMaxQ 1 (((getAreaD b t).adjacent.filter
           (fun n => decide ((getAreaD b n).owner ≠ p))).map
         (fun e => o.pSA
           (setDice b t (min ((getAreaD b t).dice + (getAreaD b s).dice) MAX_DICE)) t e)),
       b) := by
  have hb : setDice
      (setDice b t (min ((getAreaD b t).dice + (getAreaD b s).dice) MAX_DICE)) t
      (getAreaD b t).dice = b := setDice_restore b t _
  simp only [getTransferProbability]
  rw [hb]

/-! ### Claim C3 -/

/-- Claim C3 (counterexample): on `boardTT`, a simulated
`Transfer(10 → 20)` with 2 dice on each side yields target 4 and source 1:
the target gained 2 and the source lost only 1, so the total change (3) is
not the movable amount under either reading (moving everything: 2; keeping a
die behind: 1) — the clamp `max(..., 1)` creates a die. -/
theorem c3_counterexample :
    (getAreaD (simulateCommand boardTT 10 20 TRANSFER_COMMAND) 20).dice = 4 ∧
    (getAreaD (simulateCommand boardTT 10 20 TRANSFER_COMMAND) 10).dice = 1 ∧
    ((getAreaD (simulateCommand boardTT 10 20 TRANSFER_COMMAND) 20).dice -
        (getAreaD boardTT 20).dice) +
      ((getAreaD boardTT 10).dice -
        (getAreaD (simulateCommand boardTT 10 20 TRANSFER_COMMAND) 10).dice) ≠
      min (getAreaD boardTT 10).dice (MAX_DICE - (getAreaD boardTT 20).dice) ∧
    ((getAreaD (simulateCommand boardTT 10 20 TRANSFER_COMMAND) 20).dice -
        (getAreaD boardTT 20).dice) +
      ((getAreaD boardTT 10).dice -
        (getAreaD (simulateCommand boardTT 10 20 TRANSFER_COMMAND) 10).dice) ≠
      min ((getAreaD boardTT 10).dice - 1) (MAX_DICE - (getAreaD boardTT 20).dice) := by
  decide

/-- Claim C3 (amended): after a simulated Transfer the target's dice are
`min(pre(target) + pre(source), 8)` and the source's dice are
`max(pre(source) − moved, 1) ≥ 1`, with the target at most 8.  The target
gains exactly the movable amount `min(pre(source), 8 − pre(target))`, while
the source loses `min(movable, pre(source) − 1)`: when the whole source stack
fits under the cap the source is clamped back to one die, so one die is
created rather than conserved. -/
theorem c3_transfer_postconditions (b : Board) (s t sPre tPre : Nat)
    (hs : s ∈ b.areas.map Area.name) (ht : t ∈ b.areas.map Area.name) (hst : s ≠ t)
    (hsp : (getAreaD b s).dice = sPre) (htp : (getAreaD b t).dice = tPre)
    (h1 : 1 ≤ sPre) (h8 : tPre ≤ MAX_DICE) :
    (getAreaD (simulateCommand b s t TRANSFER_COMMAND) t).dice =
      min (tPre + sPre) MAX_DICE ∧
    (getAreaD (simulateCommand b s t TRANSFER_COMMAND) s).dice =
      max (sPre - (min (tPre + sPre) MAX_DICE - tPre)) 1 ∧
    1 ≤ (getAreaD (simulateCommand b s t TRANSFER_COMMAND) s).dice ∧
    (getAreaD (simulateCommand b s t TRANSFER_COMMAND) t).dice ≤ MAX_DICE ∧
    (getAreaD (simulateCommand b s t TRANSFER_COMMAND) t).dice - tPre =
      min sPre (MAX_DICE - tPre) ∧
    sPre - (getAreaD (simulateCommand b s t TRANSFER_COMMAND) s).dice =
      min (min sPre (MAX_DICE - tPre)) (sPre - 1) := by
  subst hsp htp
  have hsim : simulateCommand b s t TRANSFER_COMMAND =
      setDice (setDice b t (min ((getAreaD b t).dice + (getAreaD b s).dice) MAX_DICE)) s
        (max ((getAreaD (setDice b t
                (min ((getAreaD b t).dice + (getAreaD b s).dice) MAX_DICE)) s).dice -
              ((getAreaD (setDice b t
                (min ((getAreaD b t).dice + (getAreaD b s).dice) MAX_DICE)) t).dice -
               (getAreaD b t).dice)) 1) := rfl
  have hs1 : s ∈ (setDice b t
      (min ((getAreaD b t).dice + (getAreaD b s).dice) MAX_DICE)).areas.map Area.name := by
    rw [setDice_map_name]; exact hs
  have e1 : getAreaD (setDice b t
        (min ((getAreaD b t).dice + (getAreaD b s).dice) MAX_DICE)) s
      = getAreaD b s := getAreaD_setDice_other b t _ s hst
  have e2 : (getAreaD (setDice b t
        (min ((getAreaD b t).dice + (getAreaD b s).dice) MAX_DICE)) t).dice
      = min ((getAreaD b t).dice + (getAreaD b s).dice) MAX_DICE :=
    congrArg Area.dice (getAreaD_setDice_self b t _ ht)
  rw [hsim, e1, e2]
  rw [getAreaD_setDice_other _ s _ t (fun hc => hst hc.symm)]
  rw [congrArg Area.dice (getAreaD_setDice_self _ s _ hs1)]
  rw [e2]
  refine ⟨rfl, rfl, ?_, ?_, ?_, ?_⟩ <;> simp only [MAX_DICE] <;> omega

/-- Witness for C3: the amended post-conditions hold on `boardTT` with two
dice on each side of the transfer. -/
theorem c3_witness :
    (10 ∈ boardTT.areas.map Area.name ∧ 20 ∈ boardTT.areas.map Area.name ∧
      (10 : Nat) ≠ 20 ∧ (getAreaD boardTT 10).dice = 2 ∧
      (getAreaD boardTT 20).dice = 2 ∧ 1 ≤ 2 ∧ 2 ≤ MAX_DICE) ∧
    ((getAreaD (simulateCommand boardTT 10 20 TRANSFER_COMMAND) 20).dice =
        min (2 + 2) MAX_DICE ∧
      (getAreaD (simulateCommand boardTT 10 20 TRANSFER_COMMAND) 10).dice =
        max (2 - (min (2 + 2) MAX_DICE - 2)) 1 ∧
      1 ≤ (getAreaD (simulateCommand boardTT 10 20 TRANSFER_COMMAND) 10).dice ∧
      (getAreaD (simulateCommand boardTT 10 20 TRANSFER_COMMAND) 20).dice ≤ MAX_DICE ∧
      (getAreaD (simulateCommand boardTT 10 20 TRANSFER_COMMAND) 20).dice - 2 =
        min 2 (MAX_DICE - 2) ∧
      2 - (getAreaD (simulateCommand boardTT 10 20 TRANSFER_COMMAND) 10).dice =
        min (min 2 (MAX_DICE - 2)) (2 - 1)) :=
  ⟨⟨by decide, by decide, by decide, by decide, by decide, by decide, by decide⟩,
    c3_transfer_postconditions boardTT 10 20 2 2 (by decide) (by decide) (by decide)
      (by decide) (by decide) (by decide) (by decide)⟩

/-! ### Lemmas about the candidate enumeration -/

theorem insertTurnDesc_perm (x : Turn4) (l : List Turn4) :
    List.Perm (insertTurnDesc x l) (x :: l) := by
  induction l with
  | nil => exact List.Perm.refl _
  | cons y ys ih =>
    by_cases h : x.2.2.2 ≤ y.2.2.2
    · simp only [insertTurnDesc, h, if_true]
      exact (ih.cons y).trans (List.Perm.swap x y ys)
    · simp only [insertTurnDesc, h, if_false]
      exact List.Perm.refl _

theorem foldl_insertTurnDesc_perm (l acc : List Turn4) :
    List.Perm (l.foldl (fun a x => insertTurnDesc x a) acc) (acc ++ l) := by
  induction l generalizing acc with
  | nil => simp
  | cons x xs ih =>
    have h1 : List.Perm (xs.foldl (fun a y => insertTurnDesc y a) (insertTurnDesc x acc))
        (insertTurnDesc x acc ++ xs) := ih _
    have h2 : List.Perm (insertTurnDesc x acc ++ xs) ((x :: acc) ++ xs) :=
      (insertTurnDesc_perm x acc).append_right xs
    have h3 : List.Perm ((x :: acc) ++ xs) (acc ++ x :: xs) := List.perm_middle.symm
    exact ((h1.trans h2).trans h3)

theorem sortTurnsDesc_perm (l : List Turn4) : List.Perm (sortTurnsDesc l) l := by
  simpa using foldl_insertTurnDesc_perm l []

theorem attackTurnsFor_aux (o : Oracle) (b : Board) (player : Nat) (largest : List Nat) :
    ∀ (l : List (Area × Area)) (acc : List Turn4) (x : Turn4),
      (x ∈ l.foldl (fun acc st =>
        if attackProb o b player st ≥ attackThreshold b ∨ st.2.dice = MAX_DICE then
          acc ++ [(st.1.name, st.2.name, BATTLE_COMMAND,
                   if st.1.name ∈ largest then attackProb o b player st * attackWeight b
                   else attackProb o b player st)]
        else acc) acc) ↔
      x ∈ acc ∨ ∃ st ∈ l,
        (attackProb o b player st ≥ attackThreshold b ∨ st.2.dice = MAX_DICE) ∧
        x = (st.1.name, st.2.name, BATTLE_COMMAND,
             if st.1.name ∈ largest then attackProb o b player st * attackWeight b
             else attackProb o b player st) := by
  intro l
  induction l with
  | nil => simp
  | cons st rest ih =>
    intro acc x
    rw [List.foldl_cons, ih]
    by_cases h : attackProb o b player st ≥ attackThreshold b ∨ st.2.dice = MAX_DICE
    · simp only [h, if_true, List.mem_append, List.mem_singleton]
      constructor
      · rintro ((hx | hx) | ⟨st2, hst2, hc, he⟩)
        · exact Or.inl hx
        · exact Or.inr ⟨st, List.mem_cons_self st rest, h, hx⟩
        · exact Or.inr ⟨st2, List.mem_cons_of_mem st hst2, hc, he⟩
      · rintro (hx | ⟨st2, hst2, hc, he⟩)
        · exact Or.inl (Or.inl hx)
        · rcases List.mem_cons.mp hst2 with rfl | hst2
          · exact Or.inl (Or.inr he)
          · exact Or.inr ⟨st2, hst2, hc, he⟩
    · simp only [h, if_false]
      constructor
      · rintro (hx | ⟨st2, hst2, hc, he⟩)
        · exact Or.inl hx
        · exact Or.inr ⟨st2, List.mem_cons_of_mem st hst2, hc, he⟩
      · rintro (hx | ⟨st2, hst2, hc, he⟩)
        · exact Or.inl hx
        · rcases List.mem_cons.mp hst2 with rfl | hst2
          · exact absurd hc h
          · exact Or.inr ⟨st2, hst2, hc, he⟩

/-- Membership in the enumerated attack candidates. -/
theorem attackTurnsFor_mem (o : Oracle) (b : Board) (player : Nat) (largest : List Nat)
    (x : Turn4) :
    x ∈ attackTurnsFor o b player largest ↔
      ∃ st ∈ possibleAttacks b player,
        (attackProb o b player st ≥ attackThreshold b ∨ st.2.dice = MAX_DICE) ∧
        x = (st.1.name, st.2.name, BATTLE_COMMAND,
             if st.1.name ∈ largest then attackProb o b player st * attackWeight b
             else attackProb o b player st) := by
  rw [attackTurnsFor, attackTurnsFor_aux]
  simp

/-- The transfer-chain recursion only appends transfer candidates whose
source is an inner area. -/
theorem requestTransfer_delta (o : Oracle) (cfg : Cfg) (player : Nat) (inner border : List Nat) :
    ∀ (fuel : Nat) (b : Board) (source target ot : Nat) (ignored : List Nat)
      (turns : List Turn4) (count : Nat) (r : List Nat × List Turn4 × Nat × Board),
      requestTransferFromArea o cfg player inner border fuel b source target ot
        ignored turns count = some r →
      source ∈ inner →
      ∃ extra, r.2.1 = turns ++ extra ∧
        ∀ x ∈ extra, x.2.2.1 = TRANSFER_COMMAND ∧ x.1 ∈ inner := by
  intro fuel
  induction fuel with
  | zero =>
    intro b source target ot ignored turns count r h
    exact absurd h (by simp [requestTransferFromArea])
  | succ fuel ih =>
    have children : ∀ (ns : List Nat) (ot2 parent : Nat) (b : Board) (ignored : List Nat)
        (turns : List Turn4) (count : Nat) (r : List Nat × List Turn4 × Nat × Board),
        chainChildren o cfg player inner border ot2 parent fuel ns b ignored turns count
          = some r →
        ∃ extra, r.2.1 = turns ++ extra ∧
          ∀ x ∈ extra, x.2.2.1 = TRANSFER_COMMAND ∧ x.1 ∈ inner := by
      intro ns
      induction ns with
      | nil =>
        intro ot2 parent b ignored turns count r h
        simp only [chainChildren, Option.some.injEq] at h
        exact ⟨[], by simp [← h], by simp⟩
      | cons nbr rest ihn =>
        intro ot2 parent b ignored turns count r h
        simp only [chainChildren] at h
        by_cases hc : nbr ∉ ignored ∧ nbr ∈ inner
        · rw [if_pos hc] at h
          split at h
          · exact absurd h (by simp)
          · rename_i ig2 t2 c2 b2 heq
            obtain ⟨e1, he1, hP1⟩ := ih _ _ _ _ _ _ _ _ heq hc.2
            have he1t : t2 = turns ++ e1 := he1
            obtain ⟨e2, he2, hP2⟩ := ihn _ _ _ _ _ _ _ h
            refine ⟨e1 ++ e2, ?_, ?_⟩
            · rw [he2, he1t, List.append_assoc]
            · intro x hx
              rcases List.mem_append.mp hx with hx | hx
              · exact hP1 x hx
              · exact hP2 x hx
        · rw [if_neg hc] at h
          exact ihn _ _ _ _ _ _ _ h
    intro b source target ot ignored turns count r h hsrc
    simp only [requestTransferFromArea] at h
    split at h
    · exact absurd h (by simp)
    · rename_i ig2 t2 c2 b2 heq
      obtain ⟨e1, he1, hP1⟩ := children _ _ _ _ _ _ _ _ heq
      have he1t : t2 = turns ++ e1 := he1
      split at h
      · exact absurd h (by simp)
      · rename_i tp hmx
        split at h
        · simp only [Option.some.injEq] at h
          subst h
          refine ⟨e1 ++ [(source, target, TRANSFER_COMMAND, tp)], ?_, ?_⟩
          · show t2 ++ [(source, target, TRANSFER_COMMAND, tp)] = _
            rw [he1t, List.append_assoc]
          · intro x hx
            rcases List.mem_append.mp hx with hx | hx
            · exact hP1 x hx
            · rcases List.mem_singleton.mp hx with rfl
              exact ⟨rfl, hsrc⟩
        · simp only [Option.some.injEq] at h
          subst h
          exact ⟨e1, he1t, hP1⟩

/-- The border-neighbour branch only appends transfer candidates with inner
sources. -/
theorem bnFold_delta (o : Oracle) (cfg : Cfg) (player : Nat) (inner border : List Nat)
    (areaName fuel : Nat) :
    ∀ (ns : List Nat) (b : Board) (turns : List Turn4) (count : Nat)
      (r : List Turn4 × Nat × Board),
      bnFold o cfg player inner border areaName fuel ns b turns count = some r →
      ∃ extra, r.1 = turns ++ extra ∧
        ∀ x ∈ extra, x.2.2.1 = TRANSFER_COMMAND ∧ x.1 ∈ inner := by
  intro ns
  induction ns with
  | nil =>
    intro b turns count r h
    simp only [bnFold, Option.some.injEq] at h
    exact ⟨[], by simp [← h], by simp⟩
  | cons nbr rest ihn =>
    intro b turns count r h
    simp only [bnFold] at h
    by_cases hc : nbr ∈ inner
    · rw [if_pos hc] at h
      split at h
      · exact absurd h (by simp)
      · rename_i ig2 t2 c2 b2 heq
        obtain ⟨e1, he1, hP1⟩ :=
          requestTransfer_delta o cfg player inner border _ _ _ _ _ _ _ _ _ heq hc
        have he1t : t2 = turns ++ e1 := he1
        obtain ⟨e2, he2, hP2⟩ := ihn _ _ _ _ h
        refine ⟨e1 ++ e2, ?_, ?_⟩
        · rw [he2, he1t, List.append_assoc]
        · intro x hx
          rcases List.mem_append.mp hx with hx | hx
          · exact hP1 x hx
          · exact hP2 x hx
    · rw [if_neg hc] at h
      exact ihn _ _ _ _ h

/-- The border-receive branch only appends transfer candidates with owned
sources. -/
theorem borderReceiveFold_delta (o : Oracle) (player areaName : Nat)
    (playerNames border : List Nat) :
    ∀ (ns : List Nat) (b : Board) (turns : List Turn4) (count : Nat),
      ∃ extra,
        (borderReceiveFold o player areaName playerNames border ns b turns count).1 =
          turns ++ extra ∧
        ∀ x ∈ extra, x.2.2.1 = TRANSFER_COMMAND ∧ x.1 ∈ playerNames := by
  intro ns
  induction ns with
  | nil =>
    intro b turns count
    exact ⟨[], by simp [borderReceiveFold], by simp⟩
  | cons nbr rest ihn =>
    intro b turns count
    simp only [borderReceiveFold]
    by_cases hc : nbr ∈ playerNames
    · rw [if_pos hc]
      by_cases hk : (getAreaD (getTransferProbability o b nbr areaName player).2 nbr).dice > 1 ∧
          (getTransferProbability o b nbr areaName player).1 > TRANSFER_PROBABILITY_THRESHOLD ∧
          nbr ∉ border
      · rw [if_pos hk]
        obtain ⟨e1, he1, hP1⟩ := ihn (getTransferProbability o b nbr areaName player).2
          (turns ++ [(nbr, areaName, TRANSFER_COMMAND,
            (getTransferProbability o b nbr areaName player).1)]) (count + 1)
        refine ⟨(nbr, areaName, TRANSFER_COMMAND,
          (getTransferProbability o b nbr areaName player).1) :: e1, ?_, ?_⟩
        · rw [he1, List.append_assoc]
          rfl
        · intro x hx
          rcases List.mem_cons.mp hx with rfl | hx
          · exact ⟨rfl, hc⟩
          · exact hP1 x hx
      · rw [if_neg hk]
        exact ihn _ _ _
    · rw [if_neg hc]
      exact ihn _ _ _

/-- The whole transfer loop only appends transfer candidates with owned
sources. -/
theorem mainAreasLoop_delta (o : Oracle) (cfg : Cfg) (player : Nat)
    (playerNames border bn inner : List Nat) (fuel : Nat)
    (hinner : ∀ n ∈ inner, n ∈ playerNames) :
    ∀ (as : List Area) (b : Board) (turns : List Turn4) (count : Nat)
      (r : List Turn4 × Nat × Board),
      mainAreasLoop o cfg player playerNames border bn inner fuel as b turns count = some r →
      ∃ extra, r.1 = turns ++ extra ∧
        ∀ x ∈ extra, x.2.2.1 = TRANSFER_COMMAND ∧ x.1 ∈ playerNames := by
  intro as
  induction as with
  | nil =>
    intro b turns count r h
    simp only [mainAreasLoop, Option.some.injEq] at h
    exact ⟨[], by simp [← h], by simp⟩
  | cons a rest ihn =>
    intro b turns count r h
    simp only [mainAreasLoop] at h
    by_cases hstop : count = cfg.maxTransfers
    · rw [if_pos hstop] at h
      simp only [Option.some.injEq] at h
      exact ⟨[], by simp [← h], by simp⟩
    · rw [if_neg hstop] at h
      by_cases hbn : a.name ∈ bn
      · rw [if_pos hbn] at h
        split at h
        · exact absurd h (by simp)
        · rename_i t2 c2 b2 heq
          obtain ⟨e1, he1, hP1⟩ := bnFold_delta o cfg player inner border _ _ _ _ _ _ _ heq
          have he1t : t2 = turns ++ e1 := he1
          obtain ⟨e2, he2, hP2⟩ := ihn _ _ _ _ h
          refine ⟨e1 ++ e2, ?_, ?_⟩
          · rw [he2, he1t, List.append_assoc]
          · intro x hx
            rcases List.mem_append.mp hx with hx | hx
            · exact ⟨(hP1 x hx).1, hinner _ (hP1 x hx).2⟩
            · exact hP2 x hx
      · rw [if_neg hbn] at h
        by_cases hbr : a.name ∈ border ∧ (getAreaD b a.name).dice < MAX_DICE
        · rw [if_pos hbr] at h
          obtain ⟨e1, he1, hP1⟩ := borderReceiveFold_delta o player a.name playerNames border
            a.adjacent b turns count
          obtain ⟨e2, he2, hP2⟩ := ihn _ _ _ _ h
          refine ⟨e1 ++ e2, ?_, ?_⟩
          · rw [he2, he1, List.append_assoc]
          · intro x hx
            rcases List.mem_append.mp hx with hx | hx
            · exact hP1 x hx
            · exact hP2 x hx
        · rw [if_neg hbr] at h
          exact ihn _ _ _ _ h

theorem playerNamesOf_spec (b : Board) (player n : Nat) :
    n ∈ playerNamesOf b player ↔ ∃ a ∈ b.areas, a.name = n ∧ a.owner = player := by
  simp only [playerNamesOf, getPlayerAreas, List.mem_map, List.mem_filter,
    decide_eq_true_eq]
  constructor
  · rintro ⟨a, ⟨ha, how⟩, hn⟩
    exact ⟨a, ha, hn, how⟩
  · rintro ⟨a, ha, hn, how⟩
    exact ⟨a, ⟨ha, how⟩, hn⟩

theorem innerNamesOf_subset (b : Board) (player : Nat) :
    ∀ n ∈ innerNamesOf b player, n ∈ playerNamesOf b player := by
  intro n hn
  simp only [innerNamesOf, List.mem_map, List.mem_filter] at hn
  obtain ⟨a, ⟨ha, _⟩, hname⟩ := hn
  exact List.mem_map.mpr ⟨a, ha, hname⟩

theorem foldl_append_bind {α β : Type} (g : α → List β) :
    ∀ (l : List α) (acc : List β),
      l.foldl (fun acc a => acc ++ g a) acc = acc ++ l.flatMap g := by
  intro l
  induction l with
  | nil => intro acc; simp
  | cons a rest ih =>
    intro acc
    simp only [List.foldl_cons, ih, List.flatMap_cons, List.append_assoc]

theorem possibleAttacks_eq (b : Board) (p : Nat) :
    possibleAttacks b p =
      (getPlayerAreas b p).flatMap (fun a =>
        a.adjacent.filterMap (fun n =>
          match b.areas.find? (fun t => decide (t.name = n)) with
          | some t => if t.owner ≠ p then some (a, t) else none
          | none => none)) := by
  rw [possibleAttacks, foldl_append_bind]
  rfl

theorem possibleAttacks_source_owned (b : Board) (p : Nat) (st : Area × Area)
    (h : st ∈ possibleAttacks b p) : st.1 ∈ b.areas ∧ st.1.owner = p := by
  rw [possibleAttacks_eq] at h
  obtain ⟨a, ha, hmem⟩ := List.mem_flatMap.mp h
  obtain ⟨n, _, hg⟩ := List.mem_filterMap.mp hmem
  have hfa : a ∈ b.areas ∧ a.owner = p := by
    have := List.mem_filter.mp ha
    exact ⟨this.1, of_decide_eq_true this.2⟩
  split at hg
  · split at hg
    · obtain rfl := Option.some.inj hg
      exact hfa
    · exact absurd hg (by simp)
  · exact absurd hg (by simp)

/-- Unfolding of a successful `getPossibleTurns` call: the raw candidate list
produced by the transfer loop seeded with the attack candidates, then sorted
and truncated. -/
theorem getPossibleTurns_eq (o : Oracle) (cfg : Cfg) (player : Nat) (b : Board)
    (ts : List Turn3) (b2 : Board)
    (h : getPossibleTurns o cfg player b = some (ts, b2)) :
    ∃ largest turnsAll countF,
      getLargestRegionForPlayer player b = some largest ∧
      mainAreasLoop o cfg player (playerNamesOf b player) (borderNamesOf b player)
        (bnNamesOf b player) (innerNamesOf b player) (b.areas.length + 1)
        (getPlayerAreas b player) b (attackTurnsFor o b player largest)
        (if player = cfg.playerName then cfg.transferCountThisTurn else 0)
        = some (turnsAll, countF, b2) ∧
      ts = (sortTurnsDesc turnsAll).map proj3 := by
  simp only [getPossibleTurns] at h
  split at h
  · exact absurd h (by simp)
  · rename_i largest hlr
    split at h
    · exact absurd h (by simp)
    · rename_i t2 c2 bb2 heq
      simp only [Option.some.injEq, Prod.mk.injEq] at h
      refine ⟨largest, t2, c2, hlr, ?_, h.1.symm⟩
      rw [← h.2]
      exact heq

/-! ### Claim C9 -/

/-- Claim C9: every candidate returned by `__get_possible_turns` has a source
region owned by the requesting player. -/
theorem c9_sources_owned (o : Oracle) (cfg : Cfg) (player : Nat) (b : Board)
    (ts : List Turn3) (b2 : Board)
    (h : getPossibleTurns o cfg player b = some (ts, b2)) :
    ∀ x ∈ ts, ∃ a ∈ b.areas, a.name = x.1 ∧ a.owner = player := by
  obtain ⟨largest, turnsAll, countF, hlr, hloop, hts⟩ := getPossibleTurns_eq o cfg player b ts b2 h
  intro x hx
  rw [hts] at hx
  obtain ⟨y, hy, hxy⟩ := List.mem_map.mp hx
  have hyAll : y ∈ turnsAll := (sortTurnsDesc_perm turnsAll).subset hy
  obtain ⟨extra, hsplit, hP⟩ := mainAreasLoop_delta o cfg player (playerNamesOf b player)
    (borderNamesOf b player) (bnNamesOf b player) (innerNamesOf b player)
    (b.areas.length + 1) (innerNamesOf_subset b player) _ _ _ _ _ hloop
  have hsplit2 : turnsAll = attackTurnsFor o b player largest ++ extra := hsplit
  rw [hsplit2] at hyAll
  rcases List.mem_append.mp hyAll with hyA | hyE
  · obtain ⟨st, hst, _, hy2⟩ := (attackTurnsFor_mem o b player largest y).mp hyA
    have hsrc := possibleAttacks_source_owned b player st hst
    refine ⟨st.1, hsrc.1, ?_, hsrc.2⟩
    rw [← hxy, hy2]
    rfl
  · have := (hP y hyE).2
    have hx1 : x.1 = y.1 := by rw [← hxy]; rfl
    rw [hx1]
    exact (playerNamesOf_spec b player y.1).mp this

/-- Witness for C9: the single candidate generated for player 1 on the
scenario board has its source owned by player 1. -/
theorem c9_witness :
    getPossibleTurns oracleOne cfgA 1 boardAB =
      some ([(10, 20, BATTLE_COMMAND)], boardAB) ∧
    ∃ a ∈ boardAB.areas, a.name = (10, 20, BATTLE_COMMAND).1 ∧ a.owner = 1 :=
  ⟨by with_unfolding_all decide,
   c9_sources_owned oracleOne cfgA 1 boardAB [(10, 20, BATTLE_COMMAND)] boardAB
     (by with_unfolding_all decide) (10, 20, BATTLE_COMMAND) (by decide)⟩

/-! ### Claim C2 -/

/-- Claim C2 (counterexample): on the spec's own scenario board `boardAB`
(A = area 10, owner 1, 8 dice; B = area 20, owner 2, 2 dice), with an oracle
rating every probability 0, the attack pair is enumerated and the source has
the maximum dice count, yet `__get_possible_turns` for player 1 returns no
candidate at all: the forced-inclusion test reads `attack_power =
target.get_dice()` (ai.py line 130), not the source's dice. -/
theorem c2_counterexample :
    (getAreaD boardAB 10).dice = MAX_DICE ∧
    ((⟨10, 1, 8, [20]⟩ : Area), (⟨20, 2, 2, [10]⟩ : Area)) ∈ possibleAttacks boardAB 1 ∧
    getPossibleTurns oracleZero cfgA 1 boardAB = some ([], boardAB) := by
  with_unfolding_all decide

/-- Claim C2 (amended): an enumerated attack candidate (source, target) is
kept exactly when its combined probability reaches the active threshold OR
the *target* region's dice count is the maximum 8 (`attack_power =
target.get_dice()`); the two-region scenario's Attack(A, B) is therefore
included only when the probability clears the threshold, since B has 2
dice. -/
theorem c2_attack_kept_iff (o : Oracle) (cfg : Cfg) (player : Nat) (b : Board)
    (ts : List Turn3) (b2 : Board) (s t : Nat)
    (h : getPossibleTurns o cfg player b = some (ts, b2)) :
    (s, t, BATTLE_COMMAND) ∈ ts ↔
      ∃ st ∈ possibleAttacks b player, st.1.name = s ∧ st.2.name = t ∧
        (attackProb o b player st ≥ attackThreshold b ∨ st.2.dice = MAX_DICE) := by
  obtain ⟨largest, turnsAll, countF, hlr, hloop, hts⟩ :=
    getPossibleTurns_eq o cfg player b ts b2 h
  obtain ⟨extra, hsplit, hP⟩ := mainAreasLoop_delta o cfg player (playerNamesOf b player)
    (borderNamesOf b player) (bnNamesOf b player) (innerNamesOf b player)
    (b.areas.length + 1) (innerNamesOf_subset b player) _ _ _ _ _ hloop
  have hsplit2 : turnsAll = attackTurnsFor o b player largest ++ extra := hsplit
  subst hts
  constructor
  · intro hx
    obtain ⟨y, hy, hxy⟩ := List.mem_map.mp hx
    simp only [proj3, Prod.mk.injEq] at hxy
    have hyAll : y ∈ turnsAll := (sortTurnsDesc_perm turnsAll).subset hy
    rw [hsplit2] at hyAll
    rcases List.mem_append.mp hyAll with hyA | hyE
    · obtain ⟨st, hst, hcond, hy2⟩ := (attackTurnsFor_mem o b player largest y).mp hyA
      subst hy2
      exact ⟨st, hst, hxy.1, hxy.2.1, hcond⟩
    · exact absurd (((hP y hyE).1).symm.trans hxy.2.2) (by decide)
  · rintro ⟨st, hst, rfl, rfl, hcond⟩
    have hyA : (st.1.name, st.2.name, BATTLE_COMMAND,
        if st.1.name ∈ largest then attackProb o b player st * attackWeight b
        else attackProb o b player st) ∈ attackTurnsFor o b player largest :=
      (attackTurnsFor_mem o b player largest _).mpr ⟨st, hst, hcond, rfl⟩
    have hyAll : (st.1.name, st.2.name, BATTLE_COMMAND,
        if st.1.name ∈ largest then attackProb o b player st * attackWeight b
        else attackProb o b player st) ∈ turnsAll := by
      rw [hsplit2]
      exact List.mem_append_left extra hyA
    have hySort := ((sortTurnsDesc_perm turnsAll).symm.subset) hyAll
    exact List.mem_map.mpr ⟨_, hySort, rfl⟩

/-- Witness for C2 (amended): on the scenario board with a certain oracle,
the generated list is exactly `[Attack(10, 20)]` and the characterization
applies to it. -/
theorem c2_witness :
    getPossibleTurns oracleOne cfgA 1 boardAB =
      some ([(10, 20, BATTLE_COMMAND)], boardAB) ∧
    ((10, 20, BATTLE_COMMAND) ∈ ([(10, 20, BATTLE_COMMAND)] : List Turn3) ↔
      ∃ st ∈ possibleAttacks boardAB 1, st.1.name = 10 ∧ st.2.name = 20 ∧
        (attackProb oracleOne boardAB 1 st ≥ attackThreshold boardAB ∨
          st.2.dice = MAX_DICE)) :=
  ⟨by with_unfolding_all decide,
   c2_attack_kept_iff oracleOne cfgA 1 boardAB [(10, 20, BATTLE_COMMAND)] boardAB 10 20
     (by with_unfolding_all decide)⟩

/-! ### Claim C4 -/

/-- Claim C4 (counterexample): on `boardChain` the returned ranked list
contains the transfer `(9, 8, TRANSFER_COMMAND)` twice: the chain recursion is
restarted with a fresh visited list from each border-neighbour area (ai.py
line 165), and areas 6 and 7 both reach the inner edge 9 → 8. -/
theorem c4_counterexample :
    getPossibleTurns oracleOne cfgA 1 boardChain =
      some ([(5, 99, BATTLE_COMMAND), (6, 5, TRANSFER_COMMAND), (7, 5, TRANSFER_COMMAND),
             (9, 8, TRANSFER_COMMAND), (8, 6, TRANSFER_COMMAND), (9, 8, TRANSFER_COMMAND),
             (8, 7, TRANSFER_COMMAND)], boardChain) ∧
    ¬ ([(5, 99, BATTLE_COMMAND), (6, 5, TRANSFER_COMMAND), (7, 5, TRANSFER_COMMAND),
        (9, 8, TRANSFER_COMMAND), (8, 6, TRANSFER_COMMAND), (9, 8, TRANSFER_COMMAND),
        (8, 7, TRANSFER_COMMAND)] : List Turn3).Nodup := by
  with_unfolding_all decide

theorem foldl_filter_map (c : Area × Area → Prop) [DecidablePred c]
    (g : Area × Area → Turn4) :
    ∀ (l : List (Area × Area)) (acc : List Turn4),
      l.foldl (fun acc st => if c st then acc ++ [g st] else acc) acc =
        acc ++ (l.filter (fun st => decide (c st))).map g := by
  intro l
  induction l with
  | nil => intro acc; simp
  | cons a rest ih =>
    intro acc
    by_cases hc : c a
    · simp [List.foldl_cons, hc, ih, List.filter_cons]
    · simp [List.foldl_cons, hc, ih, List.filter_cons]

/-- The attack enumeration as a filter-then-map of `possible_attacks`. -/
theorem attackTurnsFor_eq_map (o : Oracle) (b : Board) (player : Nat) (largest : List Nat) :
    attackTurnsFor o b player largest =
      ((possibleAttacks b player).filter (fun st =>
          decide (attackProb o b player st ≥ attackThreshold b ∨ st.2.dice = MAX_DICE))).map
        (fun st => (st.1.name, st.2.name, BATTLE_COMMAND,
          if st.1.name ∈ largest then attackProb o b player st * attackWeight b
          else attackProb o b player st)) := by
  rw [attackTurnsFor, foldl_filter_map]
  rfl

theorem mem_attack_filterMap (b : Board) (p : Nat) (a : Area) (st : Area × Area)
    (h : st ∈ a.adjacent.filterMap (fun n =>
      match b.areas.find? (fun t => decide (t.name = n)) with
      | some t => if t.owner ≠ p then some (a, t) else none
      | none => none)) :
    st.1 = a := by
  obtain ⟨n, _, hg⟩ := List.mem_filterMap.mp h
  split at hg
  · split at hg
    · obtain rfl := Option.some.inj hg
      rfl
    · exact absurd hg (by simp)
  · exact absurd hg (by simp)

/-- The name pairs of the enumerated attack pairs are pairwise distinct when
the board's area names and adjacency lists are duplicate-free. -/
theorem possibleAttacks_pairs_nodup (b : Board) (p : Nat)
    (hnames : (b.areas.map Area.name).Nodup)
    (hadj : ∀ a ∈ b.areas, a.adjacent.Nodup) :
    ((possibleAttacks b p).map (fun st => (st.1.name, st.2.name))).Nodup := by
  rw [possibleAttacks_eq, List.map_flatMap]
  have hsub : ∀ a ∈ getPlayerAreas b p, a ∈ b.areas := by
    intro a ha
    exact (List.mem_filter.mp ha).1
  have hplayers : ((getPlayerAreas b p).map Area.name).Nodup :=
    hnames.sublist ((List.filter_sublist b.areas).map Area.name)
  revert hsub hplayers
  induction getPlayerAreas b p with
  | nil => intro _ _; simp
  | cons a rest ih =>
    intro hsub hplayers
    rw [List.flatMap_cons]
    simp only [List.map_cons, List.nodup_cons] at hplayers
    refine List.Nodup.append ?_ (ih (fun x hx => hsub x (List.mem_cons_of_mem a hx))
      hplayers.2) ?_
    · rw [List.map_filterMap]
      refine List.Nodup.filterMap ?_ (hadj a (hsub a (List.mem_cons_self a rest)))
      intro n1 n2 x hx1 hx2
      have key : ∀ (n : Nat) (x2 : Nat × Nat),
          (((match b.areas.find? (fun t => decide (t.name = n)) with
             | some t => if t.owner ≠ p then some (a, t) else none
             | none => none) : Option (Area × Area)).map
            (fun st : Area × Area => (st.1.name, st.2.name))) = some x2 →
          x2.2 = n := by
        intro n x2 hg
        split at hg
        · rename_i t hfind
          split at hg
          · obtain rfl := Option.some.inj hg
            have := List.find?_some hfind
            exact of_decide_eq_true this
          · exact absurd hg (by simp)
        · exact absurd hg (by simp)
      rw [← key n1 x hx1, ← key n2 x hx2]
    · intro x hx1 hx2
      have hx1a : x.1 = a.name := by
        obtain ⟨st, hst, hpx⟩ := List.mem_map.mp hx1
        rw [← hpx, mem_attack_filterMap b p a st hst]
      obtain ⟨a2, ha2, hxa2⟩ := List.mem_flatMap.mp hx2
      have hx2a : x.1 = a2.name := by
        obtain ⟨st, hst, hpx⟩ := List.mem_map.mp hxa2
        rw [← hpx, mem_attack_filterMap b p a2 st hst]
      exact hplayers.1 (by rw [← hx1a, hx2a]; exact List.mem_map_of_mem Area.name ha2)

/-- Claim C4 (amended): in the ranked list returned by
`__get_possible_turns`, no two ATTACK entries share an identical
(source, target, kind) triple (given duplicate-free area names and adjacency
lists); transfer entries can be duplicated, because the chain recursion
restarts its visited list for every border-neighbour invocation and can
re-emit the same transfer edge. -/
theorem c4_attack_candidates_nodup (o : Oracle) (cfg : Cfg) (player : Nat) (b : Board)
    (ts : List Turn3) (b2 : Board)
    (hnames : (b.areas.map Area.name).Nodup)
    (hadj : ∀ a ∈ b.areas, a.adjacent.Nodup)
    (h : getPossibleTurns o cfg player b = some (ts, b2)) :
    (ts.filter (fun x => decide (x.2.2 = BATTLE_COMMAND))).Nodup := by
  obtain ⟨largest, turnsAll, countF, hlr, hloop, hts⟩ :=
    getPossibleTurns_eq o cfg player b ts b2 h
  obtain ⟨extra, hsplit, hP⟩ := mainAreasLoop_delta o cfg player (playerNamesOf b player)
    (borderNamesOf b player) (bnNamesOf b player) (innerNamesOf b player)
    (b.areas.length + 1) (innerNamesOf_subset b player) _ _ _ _ _ hloop
  have hsplit2 : turnsAll = attackTurnsFor o b player largest ++ extra := hsplit
  subst hts
  rw [List.filter_map]
  have hperm : List.Perm ((sortTurnsDesc turnsAll).filter
      ((fun x => decide (x.2.2 = BATTLE_COMMAND)) ∘ proj3))
      (turnsAll.filter ((fun x => decide (x.2.2 = BATTLE_COMMAND)) ∘ proj3)) :=
    (sortTurnsDesc_perm turnsAll).filter _
  have hfa : turnsAll.filter ((fun x => decide (x.2.2 = BATTLE_COMMAND)) ∘ proj3) =
      attackTurnsFor o b player largest := by
    rw [hsplit2, List.filter_append]
    have h1 : (attackTurnsFor o b player largest).filter
        ((fun x => decide (x.2.2 = BATTLE_COMMAND)) ∘ proj3) =
        attackTurnsFor o b player largest := by
      rw [List.filter_eq_self]
      intro y hy
      obtain ⟨st, _, _, hy2⟩ := (attackTurnsFor_mem o b player largest y).mp hy
      subst hy2
      simp [proj3]
    have h2 : extra.filter ((fun x => decide (x.2.2 = BATTLE_COMMAND)) ∘ proj3) = [] := by
      rw [List.filter_eq_nil_iff]
      intro y hy
      have := (hP y hy).1
      simp only [Function.comp_apply, proj3, this, decide_eq_true_eq]
      decide
    rw [h1, h2, List.append_nil]
  rw [hfa] at hperm
  refine ((hperm.map proj3).nodup_iff).mpr ?_
  rw [attackTurnsFor_eq_map, List.map_map]
  have heq : (proj3 ∘ fun st : Area × Area => (st.1.name, st.2.name, BATTLE_COMMAND,
      if st.1.name ∈ largest then attackProb o b player st * attackWeight b
      else attackProb o b player st)) =
      (fun pr : Nat × Nat => (pr.1, pr.2, BATTLE_COMMAND)) ∘
        (fun st : Area × Area => (st.1.name, st.2.name)) := by
    funext st
    rfl
  rw [heq, ← List.map_map]
  refine List.Nodup.map ?_ ?_
  · intro x y hxy
    simpa [Prod.ext_iff] using hxy
  · exact (possibleAttacks_pairs_nodup b player hnames hadj).sublist
      (((List.filter_sublist (possibleAttacks b player))).map _)

/-- Witness for C4 (amended): on `boardChain` the attack entries of the
(duplicate-carrying) ranked list are themselves duplicate-free. -/
theorem c4_witness :
    ((boardChain.areas.map Area.name).Nodup ∧ ∀ a ∈ boardChain.areas, a.adjacent.Nodup) ∧
    (([(5, 99, BATTLE_COMMAND), (6, 5, TRANSFER_COMMAND), (7, 5, TRANSFER_COMMAND),
        (9, 8, TRANSFER_COMMAND), (8, 6, TRANSFER_COMMAND), (9, 8, TRANSFER_COMMAND),
        (8, 7, TRANSFER_COMMAND)] : List Turn3).filter
      (fun x => decide (x.2.2 = BATTLE_COMMAND))).Nodup :=
  ⟨⟨by decide, by decide⟩,
   c4_attack_candidates_nodup oracleOne cfgA 1 boardChain
     [(5, 99, BATTLE_COMMAND), (6, 5, TRANSFER_COMMAND), (7, 5, TRANSFER_COMMAND),
      (9, 8, TRANSFER_COMMAND), (8, 6, TRANSFER_COMMAND), (9, 8, TRANSFER_COMMAND),
      (8, 7, TRANSFER_COMMAND)] boardChain (by decide) (by decide)
     (by with_unfolding_all decide)⟩

/-! ### Claim C7 -/

theorem lookupQ_append_self (k : Nat) (v : ℚ) :
    ∀ m : HeurMap, lookupQ k m = none → lookupQ k (m ++ [(k, v)]) = some v := by
  intro m
  induction m with
  | nil => intro _; simp [lookupQ]
  | cons kv rest ih =>
    intro h
    by_cases hk : kv.1 = k
    · simp [lookupQ, hk] at h
    · simp only [lookupQ, hk, if_false, List.cons_append] at h ⊢
      exact ih h

theorem lookupQ_append_other (k q : Nat) (v : ℚ) (hq : q ≠ k) :
    ∀ m : HeurMap, lookupQ q (m ++ [(k, v)]) = lookupQ q m := by
  intro m
  induction m with
  | nil =>
    simp only [List.nil_append, lookupQ]
    rw [if_neg (fun h : k = q => hq h.symm)]
  | cons kv rest ih =>
    by_cases hk : kv.1 = q
    · simp [lookupQ, hk]
    · simp only [List.cons_append, lookupQ, hk, if_false]
      exact ih

theorem lookupQ_replace_self (k : Nat) (v : ℚ) :
    ∀ m : HeurMap, (lookupQ k m).isSome →
      lookupQ k (m.map (fun kv => if kv.1 = k then (k, v) else kv)) = some v := by
  intro m
  induction m with
  | nil => intro h; simp [lookupQ] at h
  | cons kv rest ih =>
    intro h
    by_cases hk : kv.1 = k
    · simp [lookupQ, hk]
    · simp only [lookupQ, hk, if_false] at h
      simp only [List.map_cons, if_neg hk, lookupQ, hk, if_false]
      exact ih h

theorem lookupQ_replace_other (k q : Nat) (v : ℚ) (hq : q ≠ k) :
    ∀ m : HeurMap, lookupQ q (m.map (fun kv => if kv.1 = k then (k, v) else kv)) =
      lookupQ q m := by
  intro m
  induction m with
  | nil => simp [lookupQ]
  | cons kv rest ih =>
    by_cases hk : kv.1 = k
    · have hKq : ¬ (k = q) := fun h => hq h.symm
      have hkq : ¬ (kv.1 = q) := fun h => hq (h.symm.trans hk)
      simp only [List.map_cons, if_pos hk, lookupQ, hKq, if_false, hkq]
      exact ih
    · simp only [List.map_cons, if_neg hk, lookupQ]
      by_cases hkq : kv.1 = q
      · simp [hkq]
      · simp only [hkq, if_false]
        exact ih

theorem lookupQ_insertHM_self (m : HeurMap) (k : Nat) (v : ℚ) :
    lookupQ k (insertHM m k v) = some v := by
  unfold insertHM
  by_cases h : (lookupQ k m).isSome
  · rw [if_pos h]
    exact lookupQ_replace_self k v m h
  · rw [if_neg h]
    refine lookupQ_append_self k v m ?_
    cases hc : lookupQ k m with
    | none => rfl
    | some w => rw [hc] at h; simp at h

theorem lookupQ_insertHM_other (m : HeurMap) (k q : Nat) (v : ℚ) (hq : q ≠ k) :
    lookupQ q (insertHM m k v) = lookupQ q m := by
  unfold insertHM
  by_cases h : (lookupQ k m).isSome
  · rw [if_pos h]
    exact lookupQ_replace_other k q v hq m
  · rw [if_neg h]
    exact lookupQ_append_other k q v hq m

theorem getPlayersHeuristics_lookup (b : Board) :
    ∀ (players : List Nat) (acc m : HeurMap),
      List.foldlM (fun m p => (playerHeurValue b p).map (fun v => insertHM m p v))
        acc players = some m →
      ∀ q, (q ∈ players → ∃ v, playerHeurValue b q = some v ∧ lookupQ q m = some v) ∧
        (q ∉ players → lookupQ q m = lookupQ q acc) := by
  intro players
  induction players with
  | nil =>
    intro acc m h q
    simp only [List.foldlM_nil, Option.pure_def, Option.some.injEq] at h
    subst h
    exact ⟨by simp, fun _ => rfl⟩
  | cons p rest ih =>
    intro acc m h q
    rw [List.foldlM_cons] at h
    cases hv : playerHeurValue b p with
    | none => rw [hv] at h; exact absurd h (by simp)
    | some v =>
      rw [hv] at h
      simp only [Option.map_some, Option.bind_eq_bind, Option.some_bind] at h
      constructor
      · intro hq
        rcases List.mem_cons.mp hq with rfl | hq2
        · by_cases hrest : q ∈ rest
          · exact ((ih _ _ h q).1) hrest
          · refine ⟨v, hv, ?_⟩
            rw [((ih _ _ h q).2) hrest]
            exact lookupQ_insertHM_self acc q v
        · exact ((ih _ _ h q).1) hq2
      · intro hq
        have hqp : q ≠ p := fun hc => hq (hc ▸ List.mem_cons_self p rest)
        have hqr : q ∉ rest := fun hc => hq (List.mem_cons_of_mem p hc)
        rw [((ih _ _ h q).2) hqr]
        exact lookupQ_insertHM_other acc p q v hqp

theorem foldl_max_le (l : List Nat) : ∀ (x : Nat), x ≤ l.foldl max x := by
  induction l with
  | nil => intro x; exact Nat.le_refl x
  | cons y ys ih =>
    intro x
    exact le_trans (Nat.le_max_left x y) (ih (max x y))

theorem foldl_max_ge_mem (l : List Nat) : ∀ (x z : Nat), z ∈ l → z ≤ l.foldl max x := by
  induction l with
  | nil => intro x z hz; simp at hz
  | cons y ys ih =>
    intro x z hz
    rcases List.mem_cons.mp hz with rfl | hz2
    · exact le_trans (Nat.le_max_right x z) (foldl_max_le ys (max x z))
    · exact ih (max x y) z hz2

theorem foldl_max_mem (l : List Nat) : ∀ (x : Nat), l.foldl max x = x ∨ l.foldl max x ∈ l := by
  induction l with
  | nil => intro x; exact Or.inl rfl
  | cons y ys ih =>
    intro x
    rw [List.foldl_cons]
    rcases ih (max x y) with h | h
    · rcases max_choice x y with hm | hm
      · rw [h, hm]; exact Or.inl rfl
      · rw [h, hm]; exact Or.inr (List.mem_cons_self y ys)
    · exact Or.inr (List.mem_cons_of_mem y h)

theorem pyMaxNat_spec (l : List Nat) (mx : Nat) (h : pyMaxNat l = some mx) :
    mx ∈ l ∧ ∀ z ∈ l, z ≤ mx := by
  cases l with
  | nil => simp [pyMaxNat] at h
  | cons x xs =>
    simp only [pyMaxNat, Option.some.injEq] at h
    subst h
    constructor
    · rcases foldl_max_mem xs x with h2 | h2
      · rw [h2]; exact List.mem_cons_self x xs
      · exact List.mem_cons_of_mem x h2
    · intro z hz
      rcases List.mem_cons.mp hz with rfl | hz2
      · exact foldl_max_le xs z
      · exact foldl_max_ge_mem xs x z hz2

theorem foldl_weighted_sum (sizes : List Nat) : ∀ (base : ℚ),
    sizes.foldl (fun (s : ℚ) (z : Nat) => s + REGION_HEURISTIC_WEIGHT * (z : ℚ)) base =
      base + REGION_HEURISTIC_WEIGHT * ((sizes.map (fun z : Nat => (z : ℚ))).sum) := by
  induction sizes with
  | nil => intro base; simp
  | cons z rest ih =>
    intro base
    rw [List.foldl_cons, ih, List.map_cons, List.sum_cons]
    ring

/-- Claim C7: for every player evaluated by a successful
`__get_players_heuristics` call, the stored heuristic equals the player's
total dice plus the region weight times the summed region sizes plus the
largest-region weight times the maximal region size. -/
theorem c7_heuristic_value (players : List Nat) (b : Board) (p : Nat) (m : HeurMap)
    (h : getPlayersHeuristics players b = some m) (hp : p ∈ players) :
    ∃ mx, pyMaxNat ((getPlayersRegions b p).map List.length) = some mx ∧
      mx ∈ ((getPlayersRegions b p).map List.length) ∧
      (∀ z ∈ ((getPlayersRegions b p).map List.length), z ≤ mx) ∧
      lookupQ p m = some ((getPlayerDice b p : ℚ) +
        REGION_HEURISTIC_WEIGHT *
          ((((getPlayersRegions b p).map List.length).map (fun z : Nat => (z : ℚ))).sum) +
        LARGEST_REGION_HEURISTIC_WEIGHT * (mx : ℚ)) := by
  obtain ⟨v, hv, hlk⟩ := ((getPlayersHeuristics_lookup b players [] m h p).1) hp
  unfold playerHeurValue at hv
  cases hmx : pyMaxNat ((getPlayersRegions b p).map List.length) with
  | none => rw [hmx] at hv; exact absurd hv (by simp)
  | some mx =>
    rw [hmx] at hv
    simp only [Option.map_some', Option.some.injEq] at hv
    obtain ⟨hmem, hle⟩ := pyMaxNat_spec _ _ hmx
    refine ⟨mx, rfl, hmem, hle, ?_⟩
    rw [hlk, ← hv, foldl_weighted_sum]

/-- Witness for C7: on `boardDuo`, player 1's heuristic is its 3 dice plus
`5 * 1` for its single region of size 1 plus `50 * 1` for the largest
region. -/
theorem c7_witness :
    getPlayersHeuristics [1] boardDuo = some [(1, 58)] ∧
    (∃ mx, pyMaxNat ((getPlayersRegions boardDuo 1).map List.length) = some mx ∧
      mx ∈ ((getPlayersRegions boardDuo 1).map List.length) ∧
      (∀ z ∈ ((getPlayersRegions boardDuo 1).map List.length), z ≤ mx) ∧
      lookupQ 1 [(1, 58)] = some ((getPlayerDice boardDuo 1 : ℚ) +
        REGION_HEURISTIC_WEIGHT *
          ((((getPlayersRegions boardDuo 1).map List.length).map
            (fun z : Nat => (z : ℚ))).sum) +
        LARGEST_REGION_HEURISTIC_WEIGHT * (1 : ℚ))) := by
  have hg : getPlayersHeuristics [1] boardDuo = some [(1, 58)] := by
    with_unfolding_all decide
  refine ⟨hg, ?_⟩
  obtain ⟨mx, h1, h2, h3, h4⟩ := c7_heuristic_value [1] boardDuo 1 [(1, 58)] hg
    (List.mem_cons_self 1 [])
  have hmx : mx = 1 := by
    have : pyMaxNat ((getPlayersRegions boardDuo 1).map List.length) = some 1 := by
      with_unfolding_all decide
    rw [this] at h1
    exact (Option.some.inj h1).symm
  subst hmx
  exact ⟨1, h1, h2, h3, h4⟩

/-! ### Claim C10 -/

theorem regionsFold_extends (b : Board) (names : List Nat) :
    ∀ (l : List Nat) (st : List (List Nat) × List Nat),
      ∃ suffix, (l.foldl (fun (st : List (List Nat) × List Nat) n =>
        if n ∈ st.2 then st
        else (st.1 ++ [component b names n], st.2 ++ component b names n)) st).1 =
        st.1 ++ suffix := by
  intro l
  induction l with
  | nil => intro st; exact ⟨[], by simp⟩
  | cons n rest ih =>
    intro st
    rw [List.foldl_cons]
    by_cases hn : n ∈ st.2
    · rw [if_pos hn]
      exact ih st
    · rw [if_neg hn]
      obtain ⟨suffix, hs⟩ := ih (st.1 ++ [component b names n], st.2 ++ component b names n)
      exact ⟨[component b names n] ++ suffix, by rw [hs, List.append_assoc]⟩

theorem regionsFold_ne_nil (b : Board) (names : List Nat) :
    ∀ (l : List Nat) (st : List (List Nat) × List Nat), st.1 ≠ [] →
      (l.foldl (fun (st : List (List Nat) × List Nat) n =>
        if n ∈ st.2 then st
        else (st.1 ++ [component b names n], st.2 ++ component b names n)) st).1 ≠ [] := by
  intro l
  induction l with
  | nil => intro st h; exact h
  | cons n rest ih =>
    intro st h
    rw [List.foldl_cons]
    by_cases hn : n ∈ st.2
    · rw [if_pos hn]
      exact ih st h
    · rw [if_neg hn]
      refine ih _ ?_
      simp

theorem getPlayersRegions_ne_nil (b : Board) (p : Nat)
    (h : getPlayerAreas b p ≠ []) : getPlayersRegions b p ≠ [] := by
  unfold getPlayersRegions
  cases hpa : (getPlayerAreas b p).map Area.name with
  | nil =>
    exact absurd (List.map_eq_nil_iff.mp hpa) h
  | cons n rest =>
    rw [List.foldl_cons]
    rw [if_neg (by simp : ¬ n ∈ (([], []) : List (List Nat) × List Nat).2)]
    exact regionsFold_ne_nil b (n :: rest) rest _ (by simp)

theorem livingPlayers_heuristics_some (b : Board) :
    getPlayersHeuristics (livingPlayers b) b ≠ none := by
  have key : ∀ (players : List Nat) (acc : HeurMap),
      (∀ p ∈ players, getPlayersRegions b p ≠ []) →
      List.foldlM (fun m p => (playerHeurValue b p).map (fun v => insertHM m p v))
        acc players ≠ none := by
    intro players
    induction players with
    | nil => intro acc _; simp
    | cons p rest ih =>
      intro acc hall
      rw [List.foldlM_cons]
      have hreg := hall p (List.mem_cons_self p rest)
      have hpv : (playerHeurValue b p).isSome := by
        unfold playerHeurValue
        cases hmx : pyMaxNat ((getPlayersRegions b p).map List.length) with
        | none =>
          cases hr : getPlayersRegions b p with
          | nil => exact absurd hr hreg
          | cons r rs => rw [hr] at hmx; simp [pyMaxNat] at hmx
        | some mx => simp
      cases hv : playerHeurValue b p with
      | none => rw [hv] at hpv; simp at hpv
      | some v =>
        simp only [Option.map_some', Option.bind_eq_bind, Option.some_bind]
        exact ih _ (fun q hq => hall q (List.mem_cons_of_mem p hq))
  refine key (livingPlayers b) [] ?_
  intro p hp
  refine getPlayersRegions_ne_nil b p ?_
  unfold livingPlayers at hp
  obtain ⟨a, ha, hown⟩ := List.mem_map.mp (List.mem_dedup.mp hp)
  intro hc
  have : a ∈ getPlayerAreas b p := by
    rw [getPlayerAreas]
    exact List.mem_filter.mpr ⟨ha, by simp [hown]⟩
  rw [hc] at this
  simp at this

/-- Claim C10 (amended): a rotation whose current (tail) player owns zero
regions is retried at the same depth with that player removed, and the
depth-0 leaf (which evaluates only players owning at least one region on the
snapshot) never fails; but the empty-rotation leaf is not similarly guarded
(see the counterexample). -/
theorem c10_zero_region_skip_and_leaf_safety (o : Oracle) (cfg : Cfg) (fuel : Nat)
    (b : Board) (p : Nat) (ps : List Nat) (depth : Nat)
    (h : getPlayerAreas b p = []) :
    maxNF o cfg (fuel + 1) b (p :: ps) depth = maxNF o cfg fuel b ps depth ∧
    getPlayersHeuristics (livingPlayers b) b ≠ none := by
  constructor
  · rw [maxNF]
    simp only [h, if_pos, if_true]
  · exact livingPlayers_heuristics_some b

/-- Witness for C10 (amended): player 3 owns nothing on `boardDuo`, so a
rotation headed by player 3 is retried without it at the same depth, and the
living-players heuristic evaluation of the board is defined. -/
theorem c10_witness :
    getPlayerAreas boardDuo 3 = [] ∧
    maxNF oracleOne cfgA 8 boardDuo [3, 1] 1 = maxNF oracleOne cfgA 7 boardDuo [1] 1 ∧
    getPlayersHeuristics (livingPlayers boardDuo) boardDuo ≠ none :=
  ⟨by decide,
   (c10_zero_region_skip_and_leaf_safety oracleOne cfgA 7 boardDuo 3 [1] 1 (by decide)).1,
   (c10_zero_region_skip_and_leaf_safety oracleOne cfgA 7 boardDuo 3 [1] 1 (by decide)).2⟩

/-- Claim C10 (counterexample): on `boardLastStand` with rotation
`[1, 2, 3]` and depth 5, the search raises (`ValueError` from `max` of an
empty sequence, modelled `Except.error`): deep in the tree the shared
rotation deque has been emptied by an earlier sibling, player 2's candidate
`Attack(21, 10)` captures the acting player's last region on the simulated
board, and the empty-rotation leaf then evaluates the heuristics of the
acting player, who owns no region there. -/
theorem c10_counterexample :
    maxNF oracleTen cfgA 100 boardLastStand [1, 2, 3] 5 =
      some (Except.error ()) := by
  with_unfolding_all rfl

/-! ### Claim C5 -/

theorem lookupQ_ne_nil (p : Nat) (m : HeurMap) (v : ℚ) (h : lookupQ p m = some v) :
    m ≠ [] := by
  intro hc
  rw [hc] at h
  simp [lookupQ] at h

theorem selectFold_none (p : Nat) :
    ∀ (res : List (Turn3 × HeurMap)) (st : Turn3 × HeurMap),
      (∀ x ∈ res, lookupQ p x.2 = none) → res.foldl (selectStep p) st = st := by
  intro res
  induction res with
  | nil => intro st _; rfl
  | cons ch rest ih =>
    intro st hall
    rw [List.foldl_cons]
    have hch : selectStep p st ch = st := by
      unfold selectStep
      rw [hall ch (List.mem_cons_self ch rest)]
    rw [hch]
    exact ih st (fun x hx => hall x (List.mem_cons_of_mem ch hx))

theorem specSelect_none_iff (p : Nat) :
    ∀ res : List (Turn3 × HeurMap),
      specSelect p res = none ↔ ∀ x ∈ res, lookupQ p x.2 = none := by
  intro res
  induction res with
  | nil => simp [specSelect]
  | cons ch rest ih =>
    constructor
    · intro h x hx
      unfold specSelect at h
      cases hch : lookupQ p ch.2 with
      | none =>
        rw [hch] at h
        rcases List.mem_cons.mp hx with rfl | hx2
        · exact hch
        · exact (ih.mp (by cases hsr : specSelect p rest with
            | none => rfl
            | some cv => rw [hsr] at h; simp at h)) x hx2
      | some v =>
        rw [hch] at h
        cases hsr : specSelect p rest with
        | none => rw [hsr] at h; simp at h
        | some cv => rw [hsr] at h; by_cases hgt : cv.2 > v <;> simp [hgt] at h
    · intro hall
      unfold specSelect
      rw [hall ch (List.mem_cons_self ch rest)]
      exact ih.mpr (fun x hx => hall x (List.mem_cons_of_mem ch hx))

theorem selectFold_char1 (p : Nat) :
    ∀ (res : List (Turn3 × HeurMap)) (tv : Turn3) (hv : HeurMap) (cur : ℚ),
      lookupQ p hv = some cur →
      (specSelect p res = none → res.foldl (selectStep p) (tv, hv) = (tv, hv)) ∧
      (∀ c2 v2, specSelect p res = some (c2, v2) →
        (v2 > cur → ∃ hv2, res.foldl (selectStep p) (tv, hv) = (c2, hv2) ∧
          lookupQ p hv2 = some v2) ∧
        (¬ v2 > cur → res.foldl (selectStep p) (tv, hv) = (tv, hv))) := by
  intro res
  induction res with
  | nil =>
    intro tv hv cur hcur
    exact ⟨fun _ => rfl, fun c2 v2 h => by simp [specSelect] at h⟩
  | cons ch rest ih =>
    intro tv hv cur hcur
    rw [List.foldl_cons]
    cases hch : lookupQ p ch.2 with
    | none =>
      have hstep : selectStep p (tv, hv) ch = (tv, hv) := by
        unfold selectStep
        rw [hch]
      rw [hstep]
      have hspec : specSelect p (ch :: rest) = specSelect p rest := by
        cases hsr : specSelect p rest <;> simp [specSelect, hch, hsr]
      rw [hspec]
      exact ih tv hv cur hcur
    | some v =>
      have hstep : selectStep p (tv, hv) ch = if v > cur then ch else (tv, hv) := by
        unfold selectStep
        rw [hch, hcur]
      by_cases hgt : v > cur
      · rw [hstep, if_pos hgt]
        cases hsr : specSelect p rest with
        | none =>
          have hspec : specSelect p (ch :: rest) = some (ch.1, v) := by
            simp [specSelect, hch, hsr]
          rw [hspec]
          refine ⟨fun h => by simp at h, fun c2 v2 h => ?_⟩
          simp only [Option.some.injEq, Prod.mk.injEq] at h
          obtain ⟨rfl, rfl⟩ := h
          constructor
          · intro _
            have hfold := (ih ch.1 ch.2 v hch).1 hsr
            exact ⟨ch.2, hfold, hch⟩
          · intro hng
            exact absurd hgt hng
        | some cv =>
          by_cases hcv : cv.2 > v
          · have hspec : specSelect p (ch :: rest) = some cv := by
              simp [specSelect, hch, hsr, hcv]
            rw [hspec]
            refine ⟨fun h => by simp at h, fun c2 v2 h => ?_⟩
            obtain rfl := Option.some.inj h
            constructor
            · intro _
              exact ((ih ch.1 ch.2 v hch).2 c2 v2 hsr).1 hcv
            · intro hng
              exact absurd (lt_trans hgt hcv) hng
          · have hspec : specSelect p (ch :: rest) = some (ch.1, v) := by
              simp [specSelect, hch, hsr, hcv]
            rw [hspec]
            refine ⟨fun h => by simp at h, fun c2 v2 h => ?_⟩
            simp only [Option.some.injEq, Prod.mk.injEq] at h
            obtain ⟨rfl, rfl⟩ := h
            constructor
            · intro _
              have hfold := ((ih ch.1 ch.2 v hch).2 cv.1 cv.2 (by rw [hsr])).2 hcv
              exact ⟨ch.2, hfold, hch⟩
            · intro hng
              exact absurd hgt hng
      · rw [hstep, if_neg hgt]
        cases hsr : specSelect p rest with
        | none =>
          have hspec : specSelect p (ch :: rest) = some (ch.1, v) := by
            simp [specSelect, hch, hsr]
          rw [hspec]
          refine ⟨fun h => by simp at h, fun c2 v2 h => ?_⟩
          simp only [Option.some.injEq, Prod.mk.injEq] at h
          obtain ⟨rfl, rfl⟩ := h
          refine ⟨fun hg => absurd hg hgt, fun _ => (ih tv hv cur hcur).1 hsr⟩
        | some cv =>
          by_cases hcv : cv.2 > v
          · have hspec : specSelect p (ch :: rest) = some cv := by
              simp [specSelect, hch, hsr, hcv]
            rw [hspec]
            refine ⟨fun h => by simp at h, fun c2 v2 h => ?_⟩
            obtain rfl := Option.some.inj h
            exact (ih tv hv cur hcur).2 c2 v2 hsr
          · have hspec : specSelect p (ch :: rest) = some (ch.1, v) := by
              simp [specSelect, hch, hsr, hcv]
            rw [hspec]
            refine ⟨fun h => by simp at h, fun c2 v2 h => ?_⟩
            simp only [Option.some.injEq, Prod.mk.injEq] at h
            obtain ⟨rfl, rfl⟩ := h
            constructor
            · intro hg
              exact absurd hg hgt
            · intro _
              have hle : ¬ cv.2 > cur := fun hc =>
                hcv (lt_of_le_of_lt (le_of_not_lt hgt) hc)
              exact ((ih tv hv cur hcur).2 cv.1 cv.2 (by rw [hsr])).2 hle
theorem selectFold_char0 (p : Nat) :
    ∀ (res : List (Turn3 × HeurMap)) (tv : Turn3),
      (specSelect p res = none → res.foldl (selectStep p) (tv, []) = (tv, [])) ∧
      (∀ c2 v2, specSelect p res = some (c2, v2) →
        ∃ hv2, res.foldl (selectStep p) (tv, []) = (c2, hv2) ∧ lookupQ p hv2 = some v2) := by
  intro res
  induction res with
  | nil =>
    intro tv
    exact ⟨fun _ => rfl, fun c2 v2 h => by simp [specSelect] at h⟩
  | cons ch rest ih =>
    intro tv
    rw [List.foldl_cons]
    cases hch : lookupQ p ch.2 with
    | none =>
      have hstep : selectStep p (tv, []) ch = (tv, []) := by
        unfold selectStep
        rw [hch]
      have hspec : specSelect p (ch :: rest) = specSelect p rest := by
        cases hsr : specSelect p rest <;> simp [specSelect, hch, hsr]
      rw [hstep, hspec]
      exact ih tv
    | some v =>
      have hstep : selectStep p (tv, []) ch = ch := by
        unfold selectStep
        rw [hch]
        rfl
      rw [hstep]
      cases hsr : specSelect p rest with
      | none =>
        have hspec : specSelect p (ch :: rest) = some (ch.1, v) := by
          simp [specSelect, hch, hsr]
        rw [hspec]
        refine ⟨fun h => by simp at h, fun c2 v2 h => ?_⟩
        simp only [Option.some.injEq, Prod.mk.injEq] at h
        obtain ⟨rfl, rfl⟩ := h
        exact ⟨ch.2, (selectFold_char1 p rest ch.1 ch.2 v hch).1 hsr, hch⟩
      | some cv =>
        by_cases hcv : cv.2 > v
        · have hspec : specSelect p (ch :: rest) = some cv := by
            simp [specSelect, hch, hsr, hcv]
          rw [hspec]
          refine ⟨fun h => by simp at h, fun c2 v2 h => ?_⟩
          obtain rfl := Option.some.inj h
          exact ((selectFold_char1 p rest ch.1 ch.2 v hch).2 c2 v2 hsr).1 hcv
        · have hspec : specSelect p (ch :: rest) = some (ch.1, v) := by
            simp [specSelect, hch, hsr, hcv]
          rw [hspec]
          refine ⟨fun h => by simp at h, fun c2 v2 h => ?_⟩
          simp only [Option.some.injEq, Prod.mk.injEq] at h
          obtain ⟨rfl, rfl⟩ := h
          exact ⟨ch.2, ((selectFold_char1 p rest ch.1 ch.2 v hch).2 cv.1 cv.2
            (by rw [hsr])).2 hcv, hch⟩

theorem specSelect_split (p : Nat) :
    ∀ (res : List (Turn3 × HeurMap)) (c : Turn3) (v : ℚ),
      specSelect p res = some (c, v) →
      ∃ pre ch post, res = pre ++ ch :: post ∧ ch.1 = c ∧ lookupQ p ch.2 = some v ∧
        (∀ x ∈ pre, ∀ w, lookupQ p x.2 = some w → w < v) ∧
        (∀ x ∈ res, ∀ w, lookupQ p x.2 = some w → w ≤ v) := by
  intro res
  induction res with
  | nil => intro c v h; simp [specSelect] at h
  | cons ch rest ih =>
    intro c v h
    cases hch : lookupQ p ch.2 with
    | none =>
      have hspec : specSelect p (ch :: rest) = specSelect p rest := by
        cases hsr : specSelect p rest <;> simp [specSelect, hch, hsr]
      rw [hspec] at h
      obtain ⟨pre, ch2, post, hsplit, hc, hlk, hpre, hall⟩ := ih c v h
      refine ⟨ch :: pre, ch2, post, by rw [hsplit]; rfl, hc, hlk, ?_, ?_⟩
      · intro x hx w hw
        rcases List.mem_cons.mp hx with rfl | hx2
        · rw [hch] at hw
          exact absurd hw (by simp)
        · exact hpre x hx2 w hw
      · intro x hx w hw
        rcases List.mem_cons.mp hx with rfl | hx2
        · rw [hch] at hw
          exact absurd hw (by simp)
        · exact hall x hx2 w hw
    | some v0 =>
      cases hsr : specSelect p rest with
      | none =>
        have hspec : specSelect p (ch :: rest) = some (ch.1, v0) := by
          simp [specSelect, hch, hsr]
        rw [hspec] at h
        simp only [Option.some.injEq, Prod.mk.injEq] at h
        obtain ⟨rfl, rfl⟩ := h
        refine ⟨[], ch, rest, rfl, rfl, hch, by simp, ?_⟩
        intro x hx w hw
        rcases List.mem_cons.mp hx with rfl | hx2
        · rw [hch] at hw
          exact le_of_eq (Option.some.inj hw.symm)
        · have := ((specSelect_none_iff p rest).mp hsr) x hx2
          rw [this] at hw
          exact absurd hw (by simp)
      | some cv =>
        by_cases hcv : cv.2 > v0
        · have hspec : specSelect p (ch :: rest) = some cv := by
            simp [specSelect, hch, hsr, hcv]
          rw [hspec] at h
          obtain rfl := Option.some.inj h
          obtain ⟨pre, ch2, post, hsplit, hc, hlk, hpre, hall⟩ :=
            ih c v (by rw [hsr])
          refine ⟨ch :: pre, ch2, post, by rw [hsplit]; rfl, hc, hlk, ?_, ?_⟩
          · intro x hx w hw
            rcases List.mem_cons.mp hx with rfl | hx2
            · rw [hch] at hw
              obtain rfl := Option.some.inj hw
              exact hcv
            · exact hpre x hx2 w hw
          · intro x hx w hw
            rcases List.mem_cons.mp hx with rfl | hx2
            · rw [hch] at hw
              obtain rfl := Option.some.inj hw
              exact le_of_lt hcv
            · exact hall x hx2 w hw
        · have hspec : specSelect p (ch :: rest) = some (ch.1, v0) := by
            simp [specSelect, hch, hsr, hcv]
          rw [hspec] at h
          simp only [Option.some.injEq, Prod.mk.injEq] at h
          obtain ⟨rfl, rfl⟩ := h
          obtain ⟨pre, ch2, post, hsplit, hc, hlk, hpre, hall⟩ :=
            ih cv.1 cv.2 (by rw [hsr])
          refine ⟨[], ch, rest, rfl, rfl, hch, by simp, ?_⟩
          intro x hx w hw
          rcases List.mem_cons.mp hx with rfl | hx2
          · rw [hch] at hw
            exact le_of_eq (Option.some.inj hw.symm)
          · exact le_trans (hall x hx2 w hw) (le_of_not_lt hcv)

theorem loopTrace_fst (o : Oracle) (cfg : Cfg) (b : Board) (depth fuel : Nat) :
    ∀ (turns : List Turn3) (rot : List Nat) (res : List (Turn3 × HeurMap)) (rotF : List Nat),
      loopTrace o cfg b depth fuel turns rot = some (Except.ok (res, rotF)) →
      res.map Prod.fst = turns := by
  intro turns
  induction turns with
  | nil =>
    intro rot res rotF h
    simp only [loopTrace, Option.some.injEq, Except.ok.injEq, Prod.mk.injEq] at h
    rw [← h.1]
    rfl
  | cons c cs ih =>
    intro rot res rotF h
    simp only [loopTrace] at h
    split at h
    · exact absurd h (by simp)
    · rename_i e heq
      exact absurd h (by simp)
    · rename_i t0 nh rot2 heq
      split at h
      · exact absurd h (by simp)
      · rename_i e heq2
        exact absurd h (by simp)
      · rename_i res2 rotF2 heq2
        simp only [Option.some.injEq, Except.ok.injEq, Prod.mk.injEq] at h
        rw [← h.1]
        simp only [List.map_cons]
        rw [ih _ _ _ heq2]

theorem maxNLoop_eq_trace (o : Oracle) (cfg : Cfg) (p : Nat) (b : Board) (depth fuel : Nat) :
    ∀ (turns : List Turn3) (rot : List Nat) (tv : Turn3) (hv : HeurMap),
      maxNLoop o cfg p b depth fuel turns rot tv hv =
        match loopTrace o cfg b depth fuel turns rot with
        | none => none
        | some (Except.error e) => some (Except.error e)
        | some (Except.ok (res, rotF)) =>
          some (Except.ok
            ((if (res.foldl (selectStep p) (tv, hv)).2 = [] then none
              else some (res.foldl (selectStep p) (tv, hv)).1),
             (res.foldl (selectStep p) (tv, hv)).2, rotF)) := by
  intro turns
  induction turns with
  | nil =>
    intro rot tv hv
    rw [maxNLoop]
    simp [loopTrace]
  | cons c cs ih =>
    intro rot tv hv
    rw [maxNLoop]
    simp only [loopTrace]
    cases hm : maxNF o cfg fuel (simulateCommand b c.1 c.2.1 c.2.2) rot (depth - 1) with
    | none => rfl
    | some r =>
      cases r with
      | error e => rfl
      | ok trip =>
        obtain ⟨t0, nh, rot2⟩ := trip
        dsimp only
        cases hn : lookupQ p nh with
        | none =>
          dsimp only
          have hsel : selectStep p (tv, hv) (c, nh) = (tv, hv) := by
            unfold selectStep
            simp only [hn]
          rw [ih rot2 tv hv]
          cases loopTrace o cfg b depth fuel cs rot2 with
          | none => rfl
          | some r2 =>
            cases r2 with
            | error e => rfl
            | ok pr =>
              obtain ⟨res2, rotF⟩ := pr
              simp only [List.foldl_cons, hsel]
        | some v =>
          dsimp only
          cases hc : lookupQ p hv with
          | none =>
            dsimp only
            have hsel : selectStep p (tv, hv) (c, nh) = (c, nh) := by
              unfold selectStep
              simp only [hn, hc]
            rw [ih rot2 c nh]
            cases loopTrace o cfg b depth fuel cs rot2 with
            | none => rfl
            | some r2 =>
              cases r2 with
              | error e => rfl
              | ok pr =>
                obtain ⟨res2, rotF⟩ := pr
                simp only [List.foldl_cons, hsel]
          | some cur =>
            dsimp only
            by_cases hgt : v > cur
            · rw [if_pos hgt]
              have hsel : selectStep p (tv, hv) (c, nh) = (c, nh) := by
                unfold selectStep
                simp only [hn, hc, if_pos hgt]
              rw [ih rot2 c nh]
              cases loopTrace o cfg b depth fuel cs rot2 with
              | none => rfl
              | some r2 =>
                cases r2 with
                | error e => rfl
                | ok pr =>
                  obtain ⟨res2, rotF⟩ := pr
                  simp only [List.foldl_cons, hsel]
            · rw [if_neg hgt]
              have hsel : selectStep p (tv, hv) (c, nh) = (tv, hv) := by
                unfold selectStep
                simp only [hn, hc, if_neg hgt]
              rw [ih rot2 tv hv]
              cases loopTrace o cfg b depth fuel cs rot2 with
              | none => rfl
              | some r2 =>
                cases r2 with
                | error e => rfl
                | ok pr =>
                  obtain ⟨res2, rotF⟩ := pr
                  simp only [List.foldl_cons, hsel]

/-- Claim C5: in the normal case of `__max_n` (current player owns regions,
depth > 0, candidate list nonempty), at most `depth` candidates are explored
(the `[:depth]` prefix, whose per-candidate recursion results are recorded by
`loopTrace`); the returned action is the first candidate whose recursive
heuristic for the current player is defined and strictly greatest (ties
beaten by the earlier candidate), and `none` is returned exactly when no
candidate's result defines a heuristic for the current player. -/
theorem c5_maxn_normal_selection (o : Oracle) (cfg : Cfg) (fuel : Nat) (b : Board)
    (p : Nat) (ps : List Nat) (d : Nat) (allTurns : List Turn3) (b1 : Board)
    (bt : Option Turn3) (bh : HeurMap) (rot2 : List Nat)
    (results : List (Turn3 × HeurMap)) (rotL : List Nat)
    (hd : d ≠ 0)
    (hareas : getPlayerAreas b p ≠ [])
    (hgen : getPossibleTurns o cfg p b = some (allTurns, b1))
    (hturns : allTurns.take d ≠ [])
    (hrun : maxNF o cfg (fuel + 1) b (p :: ps) d = some (Except.ok (bt, bh, rot2)))
    (htrace : loopTrace o cfg b1 d fuel (allTurns.take d) (p :: ps) =
      some (Except.ok (results, rotL))) :
    (allTurns.take d).length ≤ d ∧
    results.map Prod.fst = allTurns.take d ∧
    rot2 = rotL ∧
    (bt = none ↔ ∀ x ∈ results, lookupQ p x.2 = none) ∧
    (∀ c, bt = some c → ∃ pre ch post v, results = pre ++ ch :: post ∧ ch.1 = c ∧
      lookupQ p ch.2 = some v ∧
      (∀ x ∈ pre, ∀ w, lookupQ p x.2 = some w → w < v) ∧
      (∀ x ∈ results, ∀ w, lookupQ p x.2 = some w → w ≤ v)) := by
  have hfst := loopTrace_fst o cfg b1 d fuel _ _ _ _ htrace
  rw [maxNF] at hrun
  rw [if_neg hareas, if_pos hd, hgen] at hrun
  dsimp only at hrun
  cases hcase : allTurns.take d with
  | nil => exact absurd hcase hturns
  | cons c cs =>
    rw [hcase] at hrun htrace
    dsimp only at hrun
    rw [maxNLoop_eq_trace, htrace] at hrun
    dsimp only at hrun
    simp only [Option.some.injEq, Except.ok.injEq, Prod.mk.injEq] at hrun
    obtain ⟨hbt, hbh, hrot⟩ := hrun
    refine ⟨?_, by rw [hfst, hcase], hrot.symm, ?_, ?_⟩
    · rw [← hcase]
      rw [List.length_take]
      exact min_le_left d _
    · constructor
      · intro h0
        rw [h0] at hbt
        by_cases hemp : (results.foldl (selectStep p) ((0, 0, BATTLE_COMMAND), [])).2 = []
        · intro x hx
          by_contra hdef
          cases hdx : lookupQ p x.2 with
          | none => exact hdef hdx
          | some w =>
            have hne : specSelect p results ≠ none := by
              intro hc
              have := ((specSelect_none_iff p results).mp hc) x hx
              rw [this] at hdx
              exact absurd hdx (by simp)
            cases hss : specSelect p results with
            | none => exact hne hss
            | some cv =>
              obtain ⟨hv2, hfold, hlk⟩ :=
                (selectFold_char0 p results (0, 0, BATTLE_COMMAND)).2 cv.1 cv.2
                  (by rw [hss])
              rw [hfold] at hemp
              exact lookupQ_ne_nil p hv2 cv.2 hlk hemp
        · rw [if_neg hemp] at hbt
          exact absurd hbt (by simp)
      · intro hall
        have hfold := selectFold_none p results ((0, 0, BATTLE_COMMAND), []) hall
        rw [hfold] at hbt
        rw [if_pos rfl] at hbt
        exact hbt.symm
    · intro c0 hc0
      rw [hc0] at hbt
      by_cases hall : ∀ x ∈ results, lookupQ p x.2 = none
      · have hfold := selectFold_none p results ((0, 0, BATTLE_COMMAND), []) hall
        rw [hfold, if_pos rfl] at hbt
        exact absurd hbt (by simp)
      · cases hss : specSelect p results with
        | none => exact absurd ((specSelect_none_iff p results).mp hss) hall
        | some cv =>
          obtain ⟨hv2, hfold, hlk⟩ :=
            (selectFold_char0 p results (0, 0, BATTLE_COMMAND)).2 cv.1 cv.2 (by rw [hss])
          rw [hfold] at hbt
          have hne : hv2 ≠ [] := lookupQ_ne_nil p hv2 cv.2 hlk
          rw [if_neg hne] at hbt
          obtain rfl := Option.some.inj hbt
          obtain ⟨pre, ch, post, hsplit, hcch, hlkch, hpre, hge⟩ :=
            specSelect_split p results cv.1 cv.2 (by rw [hss])
          exact ⟨pre, ch, post, cv.2, hsplit, hcch, hlkch, hpre, hge⟩

/-- Witness for C5: the normal-case characterization on `boardDuo`'s single
candidate. -/
theorem c5_witness :
    ((1 : Nat) ≠ 0) ∧ getPlayerAreas boardDuo 1 ≠ [] ∧
    getPossibleTurns oracleOne cfgA 1 boardDuo =
      some ([(10, 30, BATTLE_COMMAND)], boardDuo) ∧
    ([(10, 30, BATTLE_COMMAND)] : List Turn3).take 1 ≠ [] ∧
    maxNF oracleOne cfgA (49 + 1) boardDuo [1] 1 =
      some (Except.ok (some (10, 30, BATTLE_COMMAND),
        [(1, 56), (10, 57)], [])) ∧
    loopTrace oracleOne cfgA boardDuo 1 49
        (([(10, 30, BATTLE_COMMAND)] : List Turn3).take 1) [1] =
      some (Except.ok ([((10, 30, BATTLE_COMMAND), [(1, 56), (10, 57)])], [])) ∧
    ((([(10, 30, BATTLE_COMMAND)] : List Turn3).take 1).length ≤ 1 ∧
      ([((10, 30, BATTLE_COMMAND), ([(1, 56), (10, 57)] : HeurMap))].map Prod.fst =
        ([(10, 30, BATTLE_COMMAND)] : List Turn3).take 1) ∧
      (([] : List Nat) = []) ∧
      ((some (10, 30, BATTLE_COMMAND) : Option Turn3) = none ↔
        ∀ x ∈ [((10, 30, BATTLE_COMMAND), ([(1, 56), (10, 57)] : HeurMap))],
          lookupQ 1 x.2 = none) ∧
      (∀ c, (some (10, 30, BATTLE_COMMAND) : Option Turn3) = some c →
        ∃ pre ch post v,
          [((10, 30, BATTLE_COMMAND), ([(1, 56), (10, 57)] : HeurMap))] =
            pre ++ ch :: post ∧ ch.1 = c ∧ lookupQ 1 ch.2 = some v ∧
          (∀ x ∈ pre, ∀ w, lookupQ 1 x.2 = some w → w < v) ∧
          (∀ x ∈ [((10, 30, BATTLE_COMMAND), ([(1, 56), (10, 57)] : HeurMap))],
            ∀ w, lookupQ 1 x.2 = some w → w ≤ v))) :=
  ⟨by decide, by decide, by with_unfolding_all decide, by decide,
   by with_unfolding_all rfl, by with_unfolding_all rfl,
   c5_maxn_normal_selection oracleOne cfgA 49 boardDuo 1 [] 1
     [(10, 30, BATTLE_COMMAND)] boardDuo (some (10, 30, BATTLE_COMMAND))
     [(1, 56), (10, 57)] [] [((10, 30, BATTLE_COMMAND), [(1, 56), (10, 57)])] []
     (by decide) (by decide) (by with_unfolding_all decide) (by decide)
     (by with_unfolding_all rfl) (by with_unfolding_all rfl)⟩

end DicewarsAI
